import Mathlib

/-!
Verification of the parallel mesh-partitioning engine
(conduit_blueprint_mpi_mesh_partition.cpp).

The C++ code is embedded shallowly: MPI collectives are modelled by their
effect on the already-gathered global data (an all-gather produces the
concatenation of the per-rank lists in rank order), std::map and std::set are
modelled as key-sorted association lists and sorted duplicate-free lists, so
that iteration order (ascending by key) matches the C++ containers.
-/

namespace ConduitPartition

/-- selection::FREE_DOMAIN_ID. The header defining the constant is not part
of the sources; the spec fixes FREE = -1. -/
def FREE_DOMAIN_ID : Int := -1

/-- selection::FREE_RANK_ID. The header defining the constant is not part
of the sources; the spec fixes FREE = -1. -/
def FREE_RANK_ID : Int := -1

/-- The per-chunk record gathered by map_chunks (struct chunk_info):
element count plus requested destination rank and destination domain. -/
structure chunk_info where
  num_elements : Nat
  destination_rank : Int
  destination_domain : Int
deriving Repr, DecidableEq

/-- Sorted insertion into a sorted duplicate-free list, the model of
std::set insert. -/
def setInsert (x : Int) : List Int → List Int
  | [] => [x]
  | y :: ys =>
    if x < y then x :: y :: ys
    else if x = y then y :: ys
    else y :: setInsert x ys

/-- Keys of an association list are strictly increasing, the std::map
invariant. -/
def SortedKeys (m : List (Int × Nat)) : Prop :=
  List.Pairwise (fun a b => a.1 < b.1) m

/-- Lookup in an association list (std::map find). -/
def mapFind (m : List (Int × Nat)) (k : Int) : Option Nat :=
  (m.find? (fun p => p.1 = k)).map (fun p => p.2)

/-- Lookup with a default value. -/
def mapGetD (m : List (Int × Nat)) (k : Int) (d : Nat) : Nat :=
  (mapFind m k).getD d

/-- Model of counts[k] += v on a std::map whose absent entries read as zero;
the entry is created with value v when missing, keeping keys sorted. -/
def mapAdd (k : Int) (v : Nat) : List (Int × Nat) → List (Int × Nat)
  | [] => [(k, v)]
  | p :: rest =>
    if k < p.1 then (k, v) :: p :: rest
    else if k = p.1 then (p.1, p.2 + v) :: rest
    else p :: mapAdd k v rest

/-- Model of counts[k] = v on a std::map: overwrite or sorted insert. -/
def mapSet (k : Int) (v : Nat) : List (Int × Nat) → List (Int × Nat)
  | [] => [(k, v)]
  | p :: rest =>
    if k < p.1 then (k, v) :: p :: rest
    else if k = p.1 then (k, v) :: rest
    else p :: mapSet k v rest

/-- The argmin scan of map_chunks: start from begin() and replace the
current best only on a strictly smaller count, so the entry with the
lowest key among the minima wins (map iteration is ascending by key). -/
def argminFirst (m : List (Int × Nat)) : Option (Int × Nat) :=
  match m with
  | [] => none
  | p :: rest => some (rest.foldl (fun best q => if q.2 < best.2 then q else best) p)

/-- map_chunks lines 323-332: the set of reserved (non-FREE) destination
domain ids of the gathered chunks. -/
def reservedSet (chunks : List chunk_info) : List Int :=
  chunks.foldl
    (fun s c =>
      if c.destination_domain = FREE_DOMAIN_ID then s
      else setInsert c.destination_domain s) []

/-- map_chunks lines 363-374: per-domain element counts accumulated from
the chunks that carry a fixed destination domain. -/
def initDomainCounts (chunks : List chunk_info) : List (Int × Nat) :=
  chunks.foldl
    (fun m c =>
      if c.destination_domain ≠ FREE_DOMAIN_ID then
        mapAdd c.destination_domain c.num_elements m
      else m) []

/-- map_chunks lines 396-397: advance domid past the reserved ids. The C++
while loop terminates because the reserved set is finite; fuel equal to the
size of the set is always enough. -/
def skipReserved : Nat → List Int → Int → Int
  | 0, _, d => d
  | fuel + 1, s, d => if d ∈ s then skipReserved fuel s (d + 1) else d

/-- map_chunks lines 392-400: create the requested number of fresh domain
ids, each inserted into the reserved set and given an element count of
zero. The running domid persists between iterations as in the C++ loop. -/
def makeDomains :
    Nat → Int → List Int → List (Int × Nat) → List Int × List (Int × Nat)
  | 0, _, rd, m => (rd, m)
  | k + 1, domid, rd, m =>
    let d := skipReserved rd.length rd domid
    makeDomains k d (setInsert d rd) (mapSet d 0 m)

/-- map_chunks lines 375-401: either warn because the reserved ids exceed
the target, or synthesize target minus reserved fresh domain ids.
Returns (warned, reserved set, domain counts). -/
def synthesizeDomains (target : Nat) (rd : List Int) (m : List (Int × Nat)) :
    Bool × List Int × List (Int × Nat) :=
  if rd.length > target then (true, rd, m)
  else
    let r := makeDomains (target - rd.length) 0 rd m
    (false, r.1, r.2)

/-- map_chunks lines 403-419: walk the gathered chunks in ascending global
index order; a chunk with FREE destination domain is assigned the domain
with the least element count (first minimum of the ascending map scan) and
that count grows by the chunk element count. Returns the destination
domain of every chunk plus the final count map. -/
def assignFreeDomains :
    List chunk_info → List (Int × Nat) → List Int × List (Int × Nat)
  | [], m => ([], m)
  | c :: cs, m =>
    if c.destination_domain ≠ FREE_DOMAIN_ID then
      let r := assignFreeDomains cs m
      (c.destination_domain :: r.1, r.2)
    else
      let p := (argminFirst m).getD (FREE_DOMAIN_ID, 0)
      let r := assignFreeDomains cs (mapSet p.1 (p.2 + c.num_elements) m)
      (p.1 :: r.1, r.2)

/-- map_chunks lines 427-443, part one: the set of destination domains
that still contain a chunk with FREE destination rank. The input pairs
each gathered chunk with its (already final) destination domain. -/
def domainsToAssign (cs : List (chunk_info × Int)) : List Int :=
  cs.foldl
    (fun s c =>
      if c.1.destination_rank = FREE_RANK_ID then setInsert c.2 s else s) []

/-- map_chunks lines 428-443, part two: per-rank element counts, seeded
with zero for every rank and fed by the chunks with fixed destination
rank. -/
def rankCountsInit (size : Nat) (cs : List (chunk_info × Int)) :
    List (Int × Nat) :=
  cs.foldl
    (fun m c =>
      if c.1.destination_rank = FREE_RANK_ID then m
      else mapAdd c.1.destination_rank c.1.num_elements m)
    ((List.range size).map (fun i : Nat => ((i : Int), (0 : Nat))))

/-- std::multimap insert: place the new pair after every existing pair with
a key not greater than it, so equal keys keep insertion order. -/
def mmapInsert (p : Nat × Int) : List (Nat × Int) → List (Nat × Int)
  | [] => [p]
  | q :: qs => if p.1 < q.1 then p :: q :: qs else q :: mmapInsert p qs

/-- map_chunks lines 451-453: the multimap from domain element count to
domain id, filled by iterating the set of domains to assign in ascending
order. -/
def sizeToDomain (domCounts : List (Int × Nat)) (dta : List Int) :
    List (Nat × Int) :=
  dta.foldl (fun mm d => mmapInsert (mapGetD domCounts d 0, d) mm) []

/-- map_chunks lines 456-481: process the (count, domain) pairs, for each
domain pick the rank with the least element count, charge that rank with
the domain total and write the rank into every chunk of the domain.
The state is the rank count map plus the per-chunk (domain, rank) pairs. -/
def rankAssignLoop :
    List (Nat × Int) → List (Int × Nat) → List (Int × Int) →
    List (Int × Nat) × List (Int × Int)
  | [], rc, prs => (rc, prs)
  | (cnt, domid) :: rest, rc, prs =>
    let p := (argminFirst rc).getD (FREE_RANK_ID, 0)
    rankAssignLoop rest (mapSet p.1 (p.2 + cnt) rc)
      (prs.map (fun q => if q.1 = domid then (q.1, p.1) else q))

/-- map_chunks lines 422-481: the whole rank-assignment phase. Takes the
chunks paired with their final destination domains, returns the final
(domain, rank) pair of every chunk. -/
def rankPhase (size : Nat) (domCounts : List (Int × Nat))
    (cs : List (chunk_info × Int)) : List (Int × Int) :=
  (rankAssignLoop ((sizeToDomain domCounts (domainsToAssign cs)).reverse)
    (rankCountsInit size cs)
    (cs.map (fun c => (c.2, c.1.destination_rank)))).2

/-- Result of map_chunks: the global destination rank and destination
domain vectors plus whether the reserved-exceeds-target warning fired. -/
structure MapChunksResult where
  dest_rank : List Int
  dest_domain : List Int
  warned : Bool
deriving Repr, DecidableEq

/-- parallel_partitioner::map_chunks (lines 250-498) on the gathered
global chunk list: synthesize missing domain ids, assign FREE destination
domains by least element count, then assign a rank to every domain that
still has a chunk with FREE destination rank. -/
def map_chunks (size target : Nat) (chunks : List chunk_info) :
    MapChunksResult :=
  let rd := reservedSet chunks
  let m0 := initDomainCounts chunks
  let s := synthesizeDomains target rd m0
  let a := assignFreeDomains chunks s.2.2
  let pairs := rankPhase size a.2 (chunks.zip a.1)
  { dest_rank := pairs.map (fun p => p.2)
    dest_domain := a.1
    warned := s.1 }

/-- parallel_partitioner::count_targets (lines 89-138) on the gathered
destination-domain list: count FREE entries plus distinct named entries
(accumulated in a std::set). -/
def count_targets (global_dd : List Int) : Nat :=
  let acc := global_dd.foldl
    (fun (acc : Nat × List Int) dd =>
      if dd = FREE_DOMAIN_ID then (acc.1 + 1, acc.2)
      else (acc.1, setInsert dd acc.2)) (0, [])
  acc.1 + acc.2.length

/-- The maximum scan shared by MPI_Allreduce with MPI_MAX and the local
largest-selection loop: replace the accumulator only on a strictly larger
value, starting from zero. -/
def foldMax (l : List Nat) : Nat :=
  l.foldl (fun a b => if a < b then b else a) 0

/-- Modelled from the spec: the serial partitioner::options_get_target
(its source file is not under src/) stores the per-rank target option
into the output when the rank provided one; the caller at line 78
initializes the output to zero, so a rank without the option contributes
zero. -/
def base_target_value (provided : Option Nat) : Nat :=
  provided.getD 0

/-- parallel_partitioner::options_get_target (lines 73-86): the max over
the per-rank values, success when that max is positive. -/
def options_get_target (provided : List (Option Nat)) : Nat × Bool :=
  let value := foldMax (provided.map base_target_value)
  (value, decide (0 < value))

/-- MPI_Allreduce with MPI_MAXLOC over (value, rank) pairs in rank order:
keep the pair with the larger value; on ties keep the earlier pair, which
carries the lower rank. -/
def maxlocReduce (contribs : List (Nat × Nat)) : Nat × Nat :=
  match contribs with
  | [] => (0, 0)
  | p :: rest => rest.foldl (fun a b => if a.1 < b.1 then b else a) p

/-- parallel_partitioner::get_largest_selection (lines 159-199). The input
is the per-rank list of selection lengths; the result is the winning rank
and the local index found on that rank (minus one when the scan finds no
matching local selection). -/
def get_largest_selection (sizes : List (List Nat)) : Int × Int :=
  let contribs := (List.range sizes.length).map
    (fun r => (foldMax (sizes.getD r []), r))
  let glob := maxlocReduce contribs
  let si : Int :=
    match (sizes.getD glob.2 []).findIdx? (fun s => s = glob.1) with
    | some i => (i : Int)
    | none => -1
  ((glob.2 : Int), si)

/-! ## communicate_chunks -/

/-- The per-rank chunk-count prefix sums (map_chunks lines 277-280 and the
identical loop feeding communicate_chunks): offsets[r] is the global index
of the first chunk owned by rank r. -/
def offsetsOf (n : List Nat) : List Nat :=
  (List.range n.length).map (fun r => (n.take r).sum)

/-- The rank owning global index i in the concatenation of per-rank blocks
whose lengths are listed in n. -/
def ownerOf : List Nat → Nat → Nat
  | [], _ => 0
  | c :: rest, i => if i < c then 0 else 1 + ownerOf rest (i - c)

/-- communicate_chunks lines 517-525: the source rank of every global
chunk, a vector filled with size-1 and then overwritten block by block
with ranks 0 through size-2 using the offset differences, which equal the
per-rank counts. -/
def srcRankOf (n : List Nat) (total : Nat) : List Int :=
  let filled :=
    ((List.range (n.length - 1)).map
      (fun r => List.replicate (n.getD r 0) ((r : Int)))).flatten
  filled ++ List.replicate (total - filled.length) ((n.length : Int) - 1)

/-- The tag base of communicate_chunks (line 515). -/
def PARTITION_TAG_BASE : Nat := 12000

/-- communicate_chunks lines 551-565: the non-blocking sends posted by
rank q, one (destination, tag) pair per locally owned chunk whose
destination rank differs from q. -/
def sendsFor (n : List Nat) (dest_rank : List Int) (q : Nat) :
    List (Int × Nat) :=
  (List.range (n.getD q 0)).filterMap
    (fun i =>
      let g := (offsetsOf n).getD q 0 + i
      let d := dest_rank.getD g FREE_RANK_ID
      if d ≠ (q : Int) then some (d, PARTITION_TAG_BASE + g) else none)

/-- An entry of chunks_to_assemble before the mesh nodes are attached:
either a chunk this rank already owns (kept at its global and local
index) or a chunk received from src with the given tag. Both carry the
destination domain recorded at push time. -/
inductive AsmChunk where
  | retained (gidx : Nat) (local_i : Nat) (dom : Int)
  | received (gidx : Nat) (src : Int) (tag : Nat) (dom : Int)
deriving Repr, DecidableEq

/-- The destination domain stored with an entry. -/
def AsmChunk.dom : AsmChunk → Int
  | .retained _ _ d => d
  | .received _ _ _ d => d

/-- The global chunk index of an entry. -/
def AsmChunk.gidx : AsmChunk → Nat
  | .retained g _ _ => g
  | .received g _ _ _ => g

/-- communicate_chunks lines 567-629: walk the global chunk indices in
ascending order; every chunk destined for rank r is appended to
chunks_to_assemble, either kept (when r already owns it) or received from
its source rank with tag PARTITION_TAG_BASE plus the global index. -/
def assembleFor (n : List Nat) (dest_rank dest_domain : List Int)
    (r : Nat) : List AsmChunk :=
  (List.range dest_rank.length).filterMap
    (fun i =>
      if dest_rank.getD i FREE_RANK_ID = (r : Int) then
        let start := (offsetsOf n).getD r 0
        let dom := dest_domain.getD i FREE_DOMAIN_ID
        if start ≤ i ∧ i < start + n.getD r 0 then
          some (.retained i (i - start) dom)
        else
          some (.received i ((srcRankOf n dest_rank.length).getD i (-1))
            (PARTITION_TAG_BASE + i) dom)
      else none)

/-! ## The attribute-tree model for the chunk meshes -/

/-- A minimal model of a conduit::Node: an integer leaf or an ordered list
of named children. Only the structure that communicate_chunks touches is
needed: named-child lookup, two-level paths and leaf assignment. -/
inductive CNode where
  | intLeaf : Int → CNode
  | obj : List (String × CNode) → CNode

/-- Named-child lookup (conduit fetch of an existing child). -/
def getChild : CNode → String → Option CNode
  | .intLeaf _, _ => none
  | .obj cs, nm => (cs.find? (fun c => c.1 = nm)).map (fun c => c.2)

/-- Two-level path lookup, e.g. state/domain_id. -/
def getPath2 (m : CNode) (a b : String) : Option CNode :=
  (getChild m a).bind (fun s => getChild s b)

/-- Overwrite or append a named child (conduit operator[] followed by
assignment; a fresh child is appended, preserving the order of the
others). -/
def setChild (m : CNode) (nm : String) (v : CNode) : CNode :=
  match m with
  | .intLeaf _ => .obj [(nm, v)]
  | .obj cs =>
    if cs.any (fun c => c.1 = nm) then
      .obj (cs.map (fun c => if c.1 = nm then (nm, v) else c))
    else .obj (cs ++ [(nm, v)])

/-- Two-level path assignment, creating the intermediate child when it is
missing. -/
def setPath2 (m : CNode) (a b : String) (v : CNode) : CNode :=
  let sub := match getChild m a with
    | some s => s
    | none => .obj []
  setChild m a (setChild sub b v)

/-- communicate_chunks lines 592-599: the children of the fresh state
object built for a chunk kept on its own rank, in insertion order —
state/cycle and state/time copied from the original when present, then the
wrapper's own state/domain_id. -/
def stChildren (mesh : CNode) (dd : Int) : List (String × CNode) :=
  let st1 := match getPath2 mesh "state" "cycle" with
    | some v => [("cycle", v)]
    | none => []
  let st2 := match getPath2 mesh "state" "time" with
    | some v => st1 ++ [("time", v)]
    | none => st1
  st2 ++ [("domain_id", CNode.intLeaf dd)]

/-- communicate_chunks lines 589-600 (RENUMBER_DOMAINS is defined at line
31): the wrapper node built for a chunk kept on its own rank. Every child
except state is shared by reference through set_external_node, state/cycle
and state/time are copied when present, and the wrapper gets its own
state/domain_id. -/
def wrapChunk (mesh : CNode) (dd : Int) : CNode :=
  let cs := match mesh with
    | .intLeaf _ => []
    | .obj cs => cs
  let nonstate := cs.filter (fun c => c.1 ≠ "state")
  CNode.obj (nonstate ++ [("state", CNode.obj (stChildren mesh dd))])

/-- communicate_chunks lines 634-641: after the transport executes, every
received node has its state/domain_id overwritten with the destination
domain recorded for it. -/
def renumber (m : CNode) (dd : Int) : CNode :=
  setPath2 m "state" "domain_id" (.intLeaf dd)

/-- The mesh node and ownership flag pushed for one entry: a retained
chunk is wrapped (lines 589-604, owns = true), a received chunk is the
transported copy of the sender mesh, renumbered (lines 617-626 and
634-641, owns = true). gmeshes lists the chunk meshes in global order, so
the transported payload of global chunk g is gmeshes at g. -/
def nodeFor (gmeshes : List CNode) (e : AsmChunk) : CNode × Bool :=
  match e with
  | .retained g _ dom => (wrapChunk (gmeshes.getD g (.obj [])) dom, true)
  | .received g _ _ dom => (renumber (gmeshes.getD g (.obj [])) dom, true)

/-- The chunks_to_assemble list of rank r with the mesh nodes attached. -/
def chunksToAssemble (n : List Nat) (dest_rank dest_domain : List Int)
    (gmeshes : List CNode) (r : Nat) : List (CNode × Bool) :=
  (assembleFor n dest_rank dest_domain r).map (nodeFor gmeshes)

/-- Modelled from the spec: partitioner::chunk::free (declared at
conduit_blueprint_mesh_partition.hpp lines 188-196, implementation not
under src/) releases the mesh node exactly when the chunk owns it. -/
def chunk_free_releases (c : CNode × Bool) : Bool := c.2

/-! ## Derived definitions used to state the claims -/

/-- The chunks that pin the given destination domain. -/
def fixedTo (d : Int) (c : chunk_info) : Bool :=
  c.destination_domain = d && c.destination_domain ≠ FREE_DOMAIN_ID

/-- Total element count of the chunks pinned to the given domain. -/
def fixedSum (chunks : List chunk_info) (d : Int) : Nat :=
  ((chunks.filter (fixedTo d)).map (fun c => c.num_elements)).sum

/-- The default chunk used with List.getD; never reached at in-range
indices. -/
def defaultChunk : chunk_info :=
  ⟨0, FREE_RANK_ID, FREE_DOMAIN_ID⟩

/-- The default pair used with getD on the per-chunk (domain, rank)
lists. -/
def defaultPair : Int × Int := (FREE_DOMAIN_ID, FREE_RANK_ID)

/-- The property claimed for get_largest_selection: the returned pair is
the rank and local index of a selection whose element count is the
maximum over all selections on all ranks, with ties broken by lowest rank
and then lowest local index. -/
def largestSelClaimHolds (sizes : List (List Nat)) : Prop :=
  ∃ rn kn : Nat,
    (get_largest_selection sizes).1 = (rn : Int) ∧
    (get_largest_selection sizes).2 = (kn : Int) ∧
    rn < sizes.length ∧ kn < (sizes.getD rn []).length ∧
    (∀ row ∈ sizes, ∀ s ∈ row, s ≤ (sizes.getD rn []).getD kn 0) ∧
    (∀ r2, r2 < rn → ∀ s ∈ sizes.getD r2 [],
      s < (sizes.getD rn []).getD kn 0) ∧
    (∀ k2, k2 < kn →
      (sizes.getD rn []).getD k2 0 < (sizes.getD rn []).getD kn 0)

/-- The claim stated for map_chunks: every chunk ends with a concrete
destination rank and domain, and chunks with equal destination domains
get equal destination ranks, for every input. -/
def mapChunksInvariantHolds (size target : Nat)
    (chunks : List chunk_info) : Prop :=
  (∀ d ∈ (map_chunks size target chunks).dest_domain,
    d ≠ FREE_DOMAIN_ID) ∧
  (∀ r ∈ (map_chunks size target chunks).dest_rank, r ≠ FREE_RANK_ID) ∧
  (∀ i, i < chunks.length → ∀ j, j < chunks.length →
    (map_chunks size target chunks).dest_domain.getD i FREE_DOMAIN_ID =
      (map_chunks size target chunks).dest_domain.getD j FREE_DOMAIN_ID →
    (map_chunks size target chunks).dest_rank.getD i FREE_RANK_ID =
      (map_chunks size target chunks).dest_rank.getD j FREE_RANK_ID)

/-! ## Helper lemmas: sorted sets -/

theorem mem_setInsert (x y : Int) (s : List Int) :
    y ∈ setInsert x s ↔ y = x ∨ y ∈ s := by
  induction s with
  | nil => simp [setInsert]
  | cons z zs ih =>
    by_cases h1 : x < z
    · simp [setInsert, h1]
    · by_cases h2 : x = z
      · subst h2
        simp [setInsert, h1]
      · simp only [setInsert, if_neg h1, if_neg h2, List.mem_cons, ih]
        tauto

theorem sorted_setInsert (x : Int) (s : List Int)
    (hs : List.Pairwise (· < ·) s) :
    List.Pairwise (· < ·) (setInsert x s) := by
  induction s with
  | nil => simp [setInsert]
  | cons z zs ih =>
    rw [List.pairwise_cons] at hs
    by_cases h1 : x < z
    · simp only [setInsert, if_pos h1]
      refine List.Pairwise.cons ?_ (List.Pairwise.cons hs.1 hs.2)
      intro a ha
      rcases List.mem_cons.mp ha with h | h
      · omega
      · have := hs.1 a h
        omega
    · by_cases h2 : x = z
      · simp only [setInsert, if_neg h1, if_pos h2]
        exact List.Pairwise.cons hs.1 hs.2
      · simp only [setInsert, if_neg h1, if_neg h2]
        refine List.Pairwise.cons ?_ (ih hs.2)
        intro a ha
        rcases (mem_setInsert x a zs).mp ha with h | h
        · omega
        · exact hs.1 a h

theorem nodup_of_sorted (s : List Int) (hs : List.Pairwise (· < ·) s) :
    s.Nodup :=
  hs.imp (fun h => ne_of_lt h)

theorem length_setInsert_of_not_mem (x : Int) (s : List Int)
    (hx : x ∉ s) : (setInsert x s).length = s.length + 1 := by
  induction s with
  | nil => simp [setInsert]
  | cons z zs ih =>
    have hxz : x ≠ z := by
      intro h
      exact hx (h ▸ List.mem_cons_self z zs)
    by_cases h1 : x < z
    · simp [setInsert, h1]
    · simp only [setInsert, if_neg h1, if_neg hxz, List.length_cons]
      rw [ih (fun h => hx (List.mem_cons_of_mem z h))]

theorem length_setInsert_of_mem (x : Int) (s : List Int)
    (hs : List.Pairwise (· < ·) s) (hx : x ∈ s) :
    (setInsert x s).length = s.length := by
  induction s with
  | nil => simp at hx
  | cons z zs ih =>
    rw [List.pairwise_cons] at hs
    rcases List.mem_cons.mp hx with h | h
    · subst h
      simp [setInsert]
    · have hzx : z < x := hs.1 x h
      have h1 : ¬ x < z := by omega
      have h2 : x ≠ z := by omega
      simp only [setInsert, if_neg h1, if_neg h2, List.length_cons]
      rw [ih hs.2 h]

/-! ## Helper lemmas: sorted association lists -/

theorem mapFind_cons (p : Int × Nat) (m : List (Int × Nat)) (k : Int) :
    mapFind (p :: m) k = if p.1 = k then some p.2 else mapFind m k := by
  by_cases h : p.1 = k <;> simp [mapFind, List.find?_cons, h]

theorem mapFind_mapSet_self (k : Int) (v : Nat) (m : List (Int × Nat)) :
    mapFind (mapSet k v m) k = some v := by
  induction m with
  | nil => simp [mapSet, mapFind_cons]
  | cons p rest ih =>
    by_cases h1 : k < p.1
    · simp [mapSet, h1, mapFind_cons]
    · by_cases h2 : k = p.1
      · simp [mapSet, h1, h2, mapFind_cons]
      · have h3 : ¬ p.1 = k := fun h => h2 h.symm
        simp [mapSet, h1, h2, mapFind_cons, h3, ih]

theorem mapFind_mapSet_ne (k k2 : Int) (v : Nat) (m : List (Int × Nat))
    (hne : k2 ≠ k) : mapFind (mapSet k v m) k2 = mapFind m k2 := by
  have hkk : ¬ k = k2 := fun h => hne h.symm
  induction m with
  | nil => simp [mapSet, mapFind_cons, hkk]
  | cons p rest ih =>
    by_cases h1 : k < p.1
    · simp [mapSet, h1, mapFind_cons, hkk]
    · by_cases h2 : k = p.1
      · subst h2
        simp [mapSet, h1, mapFind_cons, hkk]
      · simp [mapSet, h1, h2, mapFind_cons, ih]

theorem mapFind_eq_none_of_lt (k : Int) (m : List (Int × Nat))
    (h : ∀ q ∈ m, k < q.1) : mapFind m k = none := by
  induction m with
  | nil => rfl
  | cons p rest ih =>
    have hp : ¬ p.1 = k := by
      have := h p (List.mem_cons_self p rest)
      omega
    rw [mapFind_cons, if_neg hp]
    exact ih (fun q hq => h q (List.mem_cons_of_mem p hq))

theorem mapFind_mapAdd_ne (k k2 : Int) (v : Nat) (m : List (Int × Nat))
    (hne : k2 ≠ k) : mapFind (mapAdd k v m) k2 = mapFind m k2 := by
  have hkk : ¬ k = k2 := fun h => hne h.symm
  induction m with
  | nil => simp [mapAdd, mapFind_cons, hkk]
  | cons p rest ih =>
    by_cases h1 : k < p.1
    · simp [mapAdd, h1, mapFind_cons, hkk]
    · by_cases h2 : k = p.1
      · subst h2
        simp [mapAdd, h1, mapFind_cons, hkk]
      · simp [mapAdd, h1, h2, mapFind_cons, ih]

theorem mapFind_mapAdd_self (k : Int) (v : Nat) (m : List (Int × Nat))
    (hs : SortedKeys m) :
    mapFind (mapAdd k v m) k = some (mapGetD m k 0 + v) := by
  induction m with
  | nil => simp [mapAdd, mapFind_cons, mapGetD, mapFind]
  | cons p rest ih =>
    rw [SortedKeys, List.pairwise_cons] at hs
    by_cases h1 : k < p.1
    · have hnone : mapFind (p :: rest) k = none := by
        refine mapFind_eq_none_of_lt k _ ?_
        intro q hq
        rcases List.mem_cons.mp hq with h | h
        · rw [h]; exact h1
        · have := hs.1 q h
          omega
      simp [mapAdd, h1, mapFind_cons, mapGetD, hnone]
    · by_cases h2 : k = p.1
      · subst h2
        simp [mapAdd, h1, mapFind_cons, mapGetD, Nat.add_comm]
      · have h3 : ¬ p.1 = k := fun h => h2 h.symm
        simp [mapAdd, h1, h2, mapFind_cons, h3, mapGetD, ih hs.2]

theorem mem_mapSet (q : Int × Nat) (k : Int) (v : Nat)
    (m : List (Int × Nat)) (hq : q ∈ mapSet k v m) : q.1 = k ∨ q ∈ m := by
  induction m with
  | nil =>
    simp [mapSet] at hq
    subst hq
    left; rfl
  | cons p rest ih =>
    by_cases h1 : k < p.1
    · simp only [mapSet, if_pos h1, List.mem_cons] at hq
      rcases hq with h | h | h
      · subst h; left; rfl
      · right; exact h ▸ List.mem_cons_self p rest
      · right; exact List.mem_cons_of_mem p h
    · by_cases h2 : k = p.1
      · simp only [mapSet, if_neg h1, if_pos h2, List.mem_cons] at hq
        rcases hq with h | h
        · subst h; left; rfl
        · right; exact List.mem_cons_of_mem p h
      · simp only [mapSet, if_neg h1, if_neg h2, List.mem_cons] at hq
        rcases hq with h | h
        · right; exact h ▸ List.mem_cons_self p rest
        · rcases ih h with h3 | h3
          · left; exact h3
          · right; exact List.mem_cons_of_mem p h3

theorem mem_mapAdd (q : Int × Nat) (k : Int) (v : Nat)
    (m : List (Int × Nat)) (hq : q ∈ mapAdd k v m) : q.1 = k ∨ q ∈ m := by
  induction m with
  | nil =>
    simp [mapAdd] at hq
    subst hq
    left; rfl
  | cons p rest ih =>
    by_cases h1 : k < p.1
    · simp only [mapAdd, if_pos h1, List.mem_cons] at hq
      rcases hq with h | h | h
      · subst h; left; rfl
      · right; exact h ▸ List.mem_cons_self p rest
      · right; exact List.mem_cons_of_mem p h
    · by_cases h2 : k = p.1
      · simp only [mapAdd, if_neg h1, if_pos h2, List.mem_cons] at hq
        rcases hq with h | h
        · subst h; left; exact h2.symm
        · right; exact List.mem_cons_of_mem p h
      · simp only [mapAdd, if_neg h1, if_neg h2, List.mem_cons] at hq
        rcases hq with h | h
        · right; exact h ▸ List.mem_cons_self p rest
        · rcases ih h with h3 | h3
          · left; exact h3
          · right; exact List.mem_cons_of_mem p h3

theorem sorted_mapSet (k : Int) (v : Nat) (m : List (Int × Nat))
    (hs : SortedKeys m) : SortedKeys (mapSet k v m) := by
  induction m with
  | nil => simp [mapSet, SortedKeys]
  | cons p rest ih =>
    rw [SortedKeys, List.pairwise_cons] at hs
    by_cases h1 : k < p.1
    · simp only [mapSet, if_pos h1]
      refine List.Pairwise.cons ?_ (List.Pairwise.cons hs.1 hs.2)
      intro q hq
      rcases List.mem_cons.mp hq with h | h
      · subst h; exact h1
      · have := hs.1 q h
        omega
    · by_cases h2 : k = p.1
      · simp only [mapSet, if_neg h1, if_pos h2]
        refine List.Pairwise.cons ?_ hs.2
        intro q hq
        have := hs.1 q hq
        omega
      · simp only [mapSet, if_neg h1, if_neg h2]
        refine List.Pairwise.cons ?_ (ih hs.2)
        intro q hq
        rcases mem_mapSet q k v rest hq with h | h
        · omega
        · exact hs.1 q h

theorem sorted_mapAdd (k : Int) (v : Nat) (m : List (Int × Nat))
    (hs : SortedKeys m) : SortedKeys (mapAdd k v m) := by
  induction m with
  | nil => simp [mapAdd, SortedKeys]
  | cons p rest ih =>
    rw [SortedKeys, List.pairwise_cons] at hs
    by_cases h1 : k < p.1
    · simp only [mapAdd, if_pos h1]
      refine List.Pairwise.cons ?_ (List.Pairwise.cons hs.1 hs.2)
      intro q hq
      rcases List.mem_cons.mp hq with h | h
      · subst h; exact h1
      · have := hs.1 q h
        omega
    · by_cases h2 : k = p.1
      · simp only [mapAdd, if_neg h1, if_pos h2]
        refine List.Pairwise.cons ?_ hs.2
        intro q hq
        have := hs.1 q hq
        omega
      · simp only [mapAdd, if_neg h1, if_neg h2]
        refine List.Pairwise.cons ?_ (ih hs.2)
        intro q hq
        rcases mem_mapAdd q k v rest hq with h | h
        · omega
        · exact hs.1 q h

theorem mapSet_ne_nil (k : Int) (v : Nat) (m : List (Int × Nat)) :
    mapSet k v m ≠ [] := by
  cases m with
  | nil => simp [mapSet]
  | cons p rest =>
    by_cases h1 : k < p.1
    · simp [mapSet, h1]
    · by_cases h2 : k = p.1 <;> simp [mapSet, h1, h2]

theorem mapAdd_ne_nil (k : Int) (v : Nat) (m : List (Int × Nat)) :
    mapAdd k v m ≠ [] := by
  cases m with
  | nil => simp [mapAdd]
  | cons p rest =>
    by_cases h1 : k < p.1
    · simp [mapAdd, h1]
    · by_cases h2 : k = p.1 <;> simp [mapAdd, h1, h2]

theorem mapFind_some_mem (m : List (Int × Nat)) (k : Int) (v : Nat)
    (h : mapFind m k = some v) : (k, v) ∈ m := by
  induction m with
  | nil => simp [mapFind] at h
  | cons p rest ih =>
    rw [mapFind_cons] at h
    by_cases hp : p.1 = k
    · rw [if_pos hp] at h
      have hpv : p = (k, v) := by
        cases p
        simp at hp h
        simp [hp, h]
      rw [← hpv]
      exact List.mem_cons_self p rest
    · rw [if_neg hp] at h
      exact List.mem_cons_of_mem p (ih h)

theorem mapFind_of_mem (m : List (Int × Nat)) (k : Int) (v : Nat)
    (hs : SortedKeys m) (h : (k, v) ∈ m) : mapFind m k = some v := by
  induction m with
  | nil => simp at h
  | cons p rest ih =>
    rw [SortedKeys, List.pairwise_cons] at hs
    rcases List.mem_cons.mp h with h1 | h1
    · rw [← h1, mapFind_cons, if_pos rfl]
    · have := hs.1 _ h1
      have hp : ¬ p.1 = k := by
        simp at this
        omega
      rw [mapFind_cons, if_neg hp]
      exact ih hs.2 h1

/-- The argmin scan returns an entry of the map whose count is minimal,
and among the minima the one with the least key (the map is iterated in
ascending key order and only a strictly smaller count replaces the
current best). -/
theorem argmin_foldl_spec (l : List (Int × Nat)) :
    ∀ p0 : Int × Nat,
    List.Pairwise (fun a b => a.1 < b.1) (p0 :: l) →
    (l.foldl (fun best q => if q.2 < best.2 then q else best) p0) ∈ p0 :: l ∧
    (∀ q ∈ p0 :: l,
      (l.foldl (fun best q => if q.2 < best.2 then q else best) p0).2 ≤ q.2) ∧
    (∀ q ∈ p0 :: l,
      q.2 = (l.foldl (fun best q => if q.2 < best.2 then q else best) p0).2 →
      (l.foldl (fun best q => if q.2 < best.2 then q else best) p0).1 ≤ q.1) := by
  induction l with
  | nil =>
    intro p0 _
    refine ⟨List.mem_cons_self p0 [], ?_, ?_⟩
    · intro q hq
      simp only [List.foldl_nil]
      rcases List.mem_cons.mp hq with h | h
      · rw [h]
      · simp at h
    · intro q hq _
      simp only [List.foldl_nil]
      rcases List.mem_cons.mp hq with h | h
      · rw [h]
      · simp at h
  | cons q l2 ih =>
    intro p0 hp
    rw [List.pairwise_cons] at hp
    have h0q : p0.1 < q.1 := hp.1 q (List.mem_cons_self q l2)
    have h0l : ∀ x ∈ l2, p0.1 < x.1 :=
      fun x hx => hp.1 x (List.mem_cons_of_mem q hx)
    by_cases hlt : q.2 < p0.2
    · have hfold :
          (q :: l2).foldl (fun best r => if r.2 < best.2 then r else best) p0 =
          l2.foldl (fun best r => if r.2 < best.2 then r else best) q := by
        simp [List.foldl_cons, hlt]
      obtain ⟨rmem, rmin, rtie⟩ := ih q hp.2
      rw [hfold]
      refine ⟨?_, ?_, ?_⟩
      · exact List.mem_cons_of_mem p0 rmem
      · intro x hx
        rcases List.mem_cons.mp hx with h | h
        · subst h
          have := rmin q (List.mem_cons_self q l2)
          omega
        · exact rmin x h
      · intro x hx hx2
        rcases List.mem_cons.mp hx with h | h
        · exfalso
          have := rmin q (List.mem_cons_self q l2)
          subst h
          omega
        · exact rtie x h hx2
    · have hfold :
          (q :: l2).foldl (fun best r => if r.2 < best.2 then r else best) p0 =
          l2.foldl (fun best r => if r.2 < best.2 then r else best) p0 := by
        simp [List.foldl_cons, hlt]
      have hp2 : List.Pairwise (fun a b => a.1 < b.1) (p0 :: l2) := by
        rw [List.pairwise_cons]
        exact ⟨h0l, (List.pairwise_cons.mp hp.2).2⟩
      obtain ⟨rmem, rmin, rtie⟩ := ih p0 hp2
      rw [hfold]
      refine ⟨?_, ?_, ?_⟩
      · rcases List.mem_cons.mp rmem with h | h
        · rw [h]
          exact List.mem_cons_self p0 _
        · exact List.mem_cons_of_mem p0 (List.mem_cons_of_mem q h)
      · intro x hx
        rcases List.mem_cons.mp hx with h | h
        · rw [h]
          exact rmin p0 (List.mem_cons_self p0 l2)
        · rcases List.mem_cons.mp h with h2 | h2
          · rw [h2]
            have := rmin p0 (List.mem_cons_self p0 l2)
            omega
          · exact rmin x (List.mem_cons_of_mem p0 h2)
      · intro x hx hx2
        rcases List.mem_cons.mp hx with h | h
        · exact rtie x (h ▸ List.mem_cons_self p0 l2) hx2
        · rcases List.mem_cons.mp h with h2 | h2
          · subst h2
            rcases List.mem_cons.mp rmem with h3 | h3
            · rw [h3]
              omega
            · exfalso
              have h4 := rmin p0 (List.mem_cons_self p0 l2)
              have h5 := h0l _ h3
              by_cases h6 : p0.2 =
                  (l2.foldl (fun best r => if r.2 < best.2 then r else best) p0).2
              · have h7 := rtie p0 (List.mem_cons_self p0 l2) h6
                omega
              · omega
          · exact rtie x (List.mem_cons_of_mem p0 h2) hx2

theorem argminFirst_spec (m : List (Int × Nat)) (hs : SortedKeys m)
    (hne : m ≠ []) :
    ∃ p, argminFirst m = some p ∧ p ∈ m ∧ (∀ q ∈ m, p.2 ≤ q.2) ∧
      (∀ q ∈ m, q.2 = p.2 → p.1 ≤ q.1) := by
  match m with
  | [] => exact absurd rfl hne
  | p0 :: rest =>
    obtain ⟨a, b, c⟩ := argmin_foldl_spec rest p0 hs
    exact ⟨_, rfl, a, b, c⟩

/-! ## Characterization of the initial domain count map (claim C2) -/

theorem fixedSum_eq_zero (chunks : List chunk_info) (d : Int)
    (h : ¬ ∃ c ∈ chunks, c.destination_domain = d ∧
      c.destination_domain ≠ FREE_DOMAIN_ID) : fixedSum chunks d = 0 := by
  have : chunks.filter (fixedTo d) = [] := by
    rw [List.filter_eq_nil_iff]
    intro c hc
    simp only [fixedTo, Bool.and_eq_true, decide_eq_true_eq, not_and,
      Bool.not_eq_true', decide_eq_false_iff_not, not_not]
    intro h1
    by_contra h2
    exact h ⟨c, hc, h1, h2⟩
  simp [fixedSum, this]

theorem initFold_find (chunks : List chunk_info) (d : Int) :
    ∀ m0 : List (Int × Nat), SortedKeys m0 →
    mapFind (chunks.foldl
      (fun m c =>
        if c.destination_domain ≠ FREE_DOMAIN_ID then
          mapAdd c.destination_domain c.num_elements m
        else m) m0) d =
    if (∃ c ∈ chunks, c.destination_domain = d ∧
        c.destination_domain ≠ FREE_DOMAIN_ID) then
      some (mapGetD m0 d 0 + fixedSum chunks d)
    else mapFind m0 d := by
  induction chunks with
  | nil =>
    intro m0 _
    simp [fixedSum]
  | cons c cs ih =>
    intro m0 hs0
    by_cases hfree : c.destination_domain ≠ FREE_DOMAIN_ID
    · by_cases hd : c.destination_domain = d
      · have hdF : d ≠ FREE_DOMAIN_ID := hd ▸ hfree
        have hsum : fixedSum (c :: cs) d = c.num_elements + fixedSum cs d := by
          simp [fixedSum, List.filter_cons, fixedTo, hd, hfree, hdF]
        have hex : ∃ x ∈ c :: cs, x.destination_domain = d ∧
            x.destination_domain ≠ FREE_DOMAIN_ID :=
          ⟨c, List.mem_cons_self c cs, hd, hfree⟩
        rw [if_pos hex]
        have hstep : (c :: cs).foldl
            (fun m x =>
              if x.destination_domain ≠ FREE_DOMAIN_ID then
                mapAdd x.destination_domain x.num_elements m
              else m) m0 =
            cs.foldl
            (fun m x =>
              if x.destination_domain ≠ FREE_DOMAIN_ID then
                mapAdd x.destination_domain x.num_elements m
              else m) (mapAdd c.destination_domain c.num_elements m0) := by
          simp [List.foldl_cons, hfree]
        rw [hstep, ih _ (sorted_mapAdd _ _ _ hs0)]
        have hdd : mapGetD (mapAdd c.destination_domain c.num_elements m0) d 0 =
            mapGetD m0 d 0 + c.num_elements := by
          rw [← hd]
          simp [mapGetD, mapFind_mapAdd_self _ _ _ hs0]
        by_cases hex2 : ∃ x ∈ cs, x.destination_domain = d ∧
            x.destination_domain ≠ FREE_DOMAIN_ID
        · rw [if_pos hex2, hdd, hsum]
          congr 1
          omega
        · rw [if_neg hex2]
          have : mapFind (mapAdd c.destination_domain c.num_elements m0) d =
              some (mapGetD m0 d 0 + c.num_elements) := by
            rw [← hd]
            exact mapFind_mapAdd_self _ _ _ hs0
          rw [this, hsum, fixedSum_eq_zero cs d hex2]
          simp
      · have hstep : (c :: cs).foldl
            (fun m x =>
              if x.destination_domain ≠ FREE_DOMAIN_ID then
                mapAdd x.destination_domain x.num_elements m
              else m) m0 =
            cs.foldl
            (fun m x =>
              if x.destination_domain ≠ FREE_DOMAIN_ID then
                mapAdd x.destination_domain x.num_elements m
              else m) (mapAdd c.destination_domain c.num_elements m0) := by
          simp [List.foldl_cons, hfree]
        rw [hstep, ih _ (sorted_mapAdd _ _ _ hs0)]
        have hfind : mapFind (mapAdd c.destination_domain c.num_elements m0) d =
            mapFind m0 d := mapFind_mapAdd_ne _ _ _ _ (fun h => hd h.symm)
        have hgetd : mapGetD (mapAdd c.destination_domain c.num_elements m0) d 0 =
            mapGetD m0 d 0 := by
          simp [mapGetD, hfind]
        have hexiff : (∃ x ∈ c :: cs, x.destination_domain = d ∧
            x.destination_domain ≠ FREE_DOMAIN_ID) ↔
            (∃ x ∈ cs, x.destination_domain = d ∧
            x.destination_domain ≠ FREE_DOMAIN_ID) := by
          constructor
          · rintro ⟨x, hx, h1, h2⟩
            rcases List.mem_cons.mp hx with h | h
            · exact absurd (h ▸ h1) hd
            · exact ⟨x, h, h1, h2⟩
          · rintro ⟨x, hx, h1, h2⟩
            exact ⟨x, List.mem_cons_of_mem c hx, h1, h2⟩
        have hsum : fixedSum (c :: cs) d = fixedSum cs d := by
          simp [fixedSum, List.filter_cons, fixedTo, hd]
        by_cases hex2 : ∃ x ∈ cs, x.destination_domain = d ∧
            x.destination_domain ≠ FREE_DOMAIN_ID
        · rw [if_pos (hexiff.mpr hex2), if_pos hex2, hgetd, hsum]
        · rw [if_neg (fun h => hex2 (hexiff.mp h)), if_neg hex2, hfind]
    · have heq : c.destination_domain = FREE_DOMAIN_ID := not_not.mp hfree
      have hstep : (c :: cs).foldl
          (fun m x =>
            if x.destination_domain ≠ FREE_DOMAIN_ID then
              mapAdd x.destination_domain x.num_elements m
            else m) m0 =
          cs.foldl
          (fun m x =>
            if x.destination_domain ≠ FREE_DOMAIN_ID then
              mapAdd x.destination_domain x.num_elements m
            else m) m0 := by
        simp [List.foldl_cons, heq]
      rw [hstep, ih _ hs0]
      have hexiff : (∃ x ∈ c :: cs, x.destination_domain = d ∧
          x.destination_domain ≠ FREE_DOMAIN_ID) ↔
          (∃ x ∈ cs, x.destination_domain = d ∧
          x.destination_domain ≠ FREE_DOMAIN_ID) := by
        constructor
        · rintro ⟨x, hx, h1, h2⟩
          rcases List.mem_cons.mp hx with h | h
          · exact absurd (h ▸ heq) h2
          · exact ⟨x, h, h1, h2⟩
        · rintro ⟨x, hx, h1, h2⟩
          exact ⟨x, List.mem_cons_of_mem c hx, h1, h2⟩
      have hsum : fixedSum (c :: cs) d = fixedSum cs d := by
        have : fixedTo d c = false := by
          simp [fixedTo, heq]
        simp [fixedSum, List.filter_cons, this]
      by_cases hex2 : ∃ x ∈ cs, x.destination_domain = d ∧
          x.destination_domain ≠ FREE_DOMAIN_ID
      · rw [if_pos (hexiff.mpr hex2), if_pos hex2, hsum]
      · rw [if_neg (fun h => hex2 (hexiff.mp h)), if_neg hex2]

theorem assignFreeDomains_append (xs ys : List chunk_info)
    (m : List (Int × Nat)) :
    assignFreeDomains (xs ++ ys) m =
      ((assignFreeDomains xs m).1 ++
        (assignFreeDomains ys (assignFreeDomains xs m).2).1,
       (assignFreeDomains ys (assignFreeDomains xs m).2).2) := by
  induction xs generalizing m with
  | nil => simp [assignFreeDomains]
  | cons c cs ih =>
    by_cases h : c.destination_domain ≠ FREE_DOMAIN_ID
    · simp [assignFreeDomains, h, ih]
    · simp [assignFreeDomains, h, ih]

theorem assignFreeDomains_length (cs : List chunk_info)
    (m : List (Int × Nat)) :
    (assignFreeDomains cs m).1.length = cs.length := by
  induction cs generalizing m with
  | nil => simp [assignFreeDomains]
  | cons c cs ih =>
    by_cases h : c.destination_domain ≠ FREE_DOMAIN_ID
    · simp [assignFreeDomains, h, ih]
    · simp [assignFreeDomains, h, ih]

theorem assignFreeDomains_sorted (cs : List chunk_info)
    (m : List (Int × Nat)) (hs : SortedKeys m) :
    SortedKeys (assignFreeDomains cs m).2 := by
  induction cs generalizing m with
  | nil => exact hs
  | cons c cs ih =>
    by_cases h : c.destination_domain ≠ FREE_DOMAIN_ID
    · simp only [assignFreeDomains, if_pos h]
      exact ih m hs
    · simp only [assignFreeDomains, if_neg h]
      exact ih _ (sorted_mapSet _ _ _ hs)

theorem assignFreeDomains_ne_nil (cs : List chunk_info)
    (m : List (Int × Nat)) (hne : m ≠ []) :
    (assignFreeDomains cs m).2 ≠ [] := by
  induction cs generalizing m with
  | nil => exact hne
  | cons c cs ih =>
    by_cases h : c.destination_domain ≠ FREE_DOMAIN_ID
    · simp only [assignFreeDomains, if_pos h]
      exact ih m hne
    · simp only [assignFreeDomains, if_neg h]
      exact ih _ (mapSet_ne_nil _ _ _)

theorem take_succ_getD (chunks : List chunk_info) (i : Nat)
    (hi : i < chunks.length) :
    chunks.take (i + 1) = chunks.take i ++ [chunks.getD i defaultChunk] := by
  have h1 : chunks.getD i defaultChunk = chunks[i] :=
    List.getD_eq_getElem _ _ hi
  rw [List.take_succ, List.getElem?_eq_getElem hi, h1]
  rfl

/-- C2. In map_chunks the per-domain element count map starts from exactly
the chunks with fixed destination domains (mapFind is some exactly when a
chunk pins the domain, and the count is the sum of the pinned element
counts), and each chunk with FREE destination domain, processed in
ascending global chunk index order, is assigned the domain whose current
count in the map is minimal, with the lowest domain id breaking ties,
after which that count grows by the chunk element count. -/
theorem map_chunks_domain_assignment (chunks : List chunk_info)
    (m : List (Int × Nat)) (hs : SortedKeys m) (hne : m ≠ []) :
    (∀ d : Int,
      mapFind (initDomainCounts chunks) d =
        if ∃ c ∈ chunks, c.destination_domain = d ∧
            c.destination_domain ≠ FREE_DOMAIN_ID then
          some (fixedSum chunks d)
        else none) ∧
    (∀ i, i < chunks.length →
      ((chunks.getD i defaultChunk).destination_domain ≠ FREE_DOMAIN_ID →
        (assignFreeDomains chunks m).1.getD i FREE_DOMAIN_ID =
          (chunks.getD i defaultChunk).destination_domain ∧
        (assignFreeDomains (chunks.take (i + 1)) m).2 =
          (assignFreeDomains (chunks.take i) m).2) ∧
      ((chunks.getD i defaultChunk).destination_domain = FREE_DOMAIN_ID →
        ∃ v, mapFind (assignFreeDomains (chunks.take i) m).2
              ((assignFreeDomains chunks m).1.getD i FREE_DOMAIN_ID) =
                some v ∧
          (∀ q ∈ (assignFreeDomains (chunks.take i) m).2, v ≤ q.2) ∧
          (∀ q ∈ (assignFreeDomains (chunks.take i) m).2, q.2 = v →
            (assignFreeDomains chunks m).1.getD i FREE_DOMAIN_ID ≤ q.1) ∧
          (assignFreeDomains (chunks.take (i + 1)) m).2 =
            mapSet ((assignFreeDomains chunks m).1.getD i FREE_DOMAIN_ID)
              (v + (chunks.getD i defaultChunk).num_elements)
              (assignFreeDomains (chunks.take i) m).2)) := by
  constructor
  · intro d
    have h := initFold_find chunks d [] (by simp [SortedKeys])
    rw [initDomainCounts, h]
    by_cases hex : ∃ c ∈ chunks, c.destination_domain = d ∧
        c.destination_domain ≠ FREE_DOMAIN_ID
    · rw [if_pos hex, if_pos hex]
      simp [mapGetD, mapFind]
    · rw [if_neg hex, if_neg hex]
      rfl
  · intro i hi
    have hlen_take : (chunks.take i).length = i := by
      rw [List.length_take]
      omega
    have hlen_a : (assignFreeDomains (chunks.take i) m).1.length = i := by
      rw [assignFreeDomains_length, hlen_take]
    have hsa : SortedKeys (assignFreeDomains (chunks.take i) m).2 :=
      assignFreeDomains_sorted _ _ hs
    have hna : (assignFreeDomains (chunks.take i) m).2 ≠ [] :=
      assignFreeDomains_ne_nil _ _ hne
    have htake := take_succ_getD chunks i hi
    have hres : (assignFreeDomains chunks m).1.getD i FREE_DOMAIN_ID =
        (assignFreeDomains (chunks.take (i + 1)) m).1.getD i
          FREE_DOMAIN_ID := by
      conv_lhs => rw [← List.take_append_drop (i + 1) chunks]
      rw [assignFreeDomains_append]
      have hlt : i < (assignFreeDomains (chunks.take (i + 1)) m).1.length := by
        rw [assignFreeDomains_length, List.length_take]
        omega
      simp only [List.getD_eq_getElem?_getD]
      rw [List.getElem?_append, if_pos hlt]
    set ci := chunks.getD i defaultChunk with hci
    constructor
    · intro hfix
      have hsingle : assignFreeDomains [ci]
          (assignFreeDomains (chunks.take i) m).2 =
          ([ci.destination_domain],
            (assignFreeDomains (chunks.take i) m).2) := by
        simp [assignFreeDomains, hfix]
      constructor
      · rw [hres, htake, assignFreeDomains_append, hsingle]
        rw [List.getD_append_right _ _ _ _ (le_of_eq hlen_a)]
        simp [hlen_a]
      · rw [htake, assignFreeDomains_append, hsingle]
    · intro hfree
      obtain ⟨p, hp_eq, hp_mem, hp_min, hp_tie⟩ :=
        argminFirst_spec _ hsa hna
      have hsingle : assignFreeDomains [ci]
          (assignFreeDomains (chunks.take i) m).2 =
          ([p.1], mapSet p.1 (p.2 + ci.num_elements)
            (assignFreeDomains (chunks.take i) m).2) := by
        simp [assignFreeDomains, hfree, hp_eq]
      have hgd : (assignFreeDomains chunks m).1.getD i FREE_DOMAIN_ID =
          p.1 := by
        rw [hres, htake, assignFreeDomains_append, hsingle]
        rw [List.getD_append_right _ _ _ _ (le_of_eq hlen_a)]
        simp [hlen_a]
      refine ⟨p.2, ?_, ?_, ?_, ?_⟩
      · rw [hgd]
        exact mapFind_of_mem _ _ _ hsa hp_mem
      · exact hp_min
      · intro q hq hq2
        rw [hgd]
        exact hp_tie q hq hq2
      · rw [hgd, htake, assignFreeDomains_append, hsingle]

/-! ## Characterization of fresh domain id synthesis (claim C4) -/

theorem skipReserved_ge (fuel : Nat) :
    ∀ (s : List Int) (d : Int), d ≤ skipReserved fuel s d := by
  induction fuel with
  | zero => intro s d; simp [skipReserved]
  | succ n ih =>
    intro s d
    by_cases h : d ∈ s
    · simp only [skipReserved, if_pos h]
      have := ih s (d + 1)
      omega
    · simp [skipReserved, h]

theorem skipReserved_min (fuel : Nat) :
    ∀ (s : List Int) (d e : Int), d ≤ e → e < skipReserved fuel s d →
      e ∈ s := by
  induction fuel with
  | zero =>
    intro s d e h1 h2
    simp [skipReserved] at h2
    omega
  | succ n ih =>
    intro s d e h1 h2
    by_cases h : d ∈ s
    · simp only [skipReserved, if_pos h] at h2
      by_cases he : e = d
      · exact he ▸ h
      · exact ih s (d + 1) e (by omega) h2
    · simp [skipReserved, h] at h2
      omega

theorem countP_ge_lt_of_mem (s : List Int) (d : Int) (hd : d ∈ s) :
    s.countP (fun x => decide (d + 1 ≤ x)) <
      s.countP (fun x => decide (d ≤ x)) := by
  induction s with
  | nil => simp at hd
  | cons y ys ih =>
    have hmono : ys.countP (fun x => decide (d + 1 ≤ x)) ≤
        ys.countP (fun x => decide (d ≤ x)) := by
      refine List.countP_mono_left ?_
      intro a _ ha
      simp at ha ⊢
      omega
    rcases List.mem_cons.mp hd with h | h
    · have hy : y = d := h.symm
      rw [List.countP_cons, List.countP_cons, hy]
      simp
      omega
    · have hlt := ih h
      rw [List.countP_cons, List.countP_cons]
      have hmono2 : (if decide (d + 1 ≤ y) = true then 1 else 0) ≤
          (if decide (d ≤ y) = true then 1 else 0) := by
        by_cases hy : d + 1 ≤ y
        · have hy2 : d ≤ y := by omega
          simp [hy, hy2]
        · simp [hy]
      omega

theorem skipReserved_not_mem (fuel : Nat) :
    ∀ (s : List Int) (d : Int),
      s.countP (fun x => decide (d ≤ x)) ≤ fuel →
      skipReserved fuel s d ∉ s := by
  induction fuel with
  | zero =>
    intro s d hc
    simp only [skipReserved]
    intro hd
    have : 0 < s.countP (fun x => decide (d ≤ x)) :=
      List.countP_pos_iff.mpr ⟨d, hd, by simp⟩
    omega
  | succ n ih =>
    intro s d hc
    by_cases h : d ∈ s
    · simp only [skipReserved, if_pos h]
      refine ih s (d + 1) ?_
      have := countP_ge_lt_of_mem s d h
      omega
    · simp only [skipReserved, if_neg h]
      exact h

theorem skipReserved_len_not_mem (s : List Int) (d : Int) :
    skipReserved s.length s d ∉ s :=
  skipReserved_not_mem s.length s d (List.countP_le_length _)

theorem makeDomains_spec :
    ∀ (k : Nat) (domid : Int) (rd : List Int) (m : List (Int × Nat)),
      List.Pairwise (· < ·) rd → SortedKeys m → 0 ≤ domid →
      (∀ y : Int, 0 ≤ y → y < domid → y ∈ rd) →
      ∃ fresh : List Int,
        fresh.Nodup ∧
        fresh.length = k ∧
        (∀ x, x ∈ (makeDomains k domid rd m).1 ↔ x ∈ rd ∨ x ∈ fresh) ∧
        (∀ x ∈ fresh, x ∉ rd ∧ 0 ≤ x ∧
          mapFind (makeDomains k domid rd m).2 x = some 0) ∧
        (∀ x, x ∉ fresh →
          mapFind (makeDomains k domid rd m).2 x = mapFind m x) ∧
        (∀ x ∈ fresh, ∀ y : Int, 0 ≤ y → y < x → y ∉ rd → y ∈ fresh) := by
  intro k
  induction k with
  | zero =>
    intro domid rd m _ _ _ _
    refine ⟨[], List.nodup_nil, rfl, ?_, ?_, ?_, ?_⟩
    · intro x
      simp [makeDomains]
    · intro x hx
      simp at hx
    · intro x _
      rfl
    · intro x hx
      simp at hx
  | succ n ih =>
    intro domid rd m hrd hm h0 hcover
    set d := skipReserved rd.length rd domid with hd_def
    have hd_ge : domid ≤ d := skipReserved_ge _ _ _
    have hd_notmem : d ∉ rd := skipReserved_len_not_mem rd domid
    have hd_min : ∀ e : Int, domid ≤ e → e < d → e ∈ rd :=
      fun e h1 h2 => skipReserved_min _ _ _ _ h1 h2
    have hstep : makeDomains (n + 1) domid rd m =
        makeDomains n d (setInsert d rd) (mapSet d 0 m) := rfl
    obtain ⟨fresh2, hnd2, hlen2, hmem2, hprops2, hunch2, hdown2⟩ :=
      ih d (setInsert d rd) (mapSet d 0 m)
        (sorted_setInsert _ _ hrd) (sorted_mapSet _ _ _ hm)
        (by omega)
        (by
          intro y hy0 hyd
          rw [mem_setInsert]
          by_cases hydom : y < domid
          · exact Or.inr (hcover y hy0 hydom)
          · exact Or.inr (hd_min y (by omega) hyd))
    have hd_notfresh2 : d ∉ fresh2 := by
      intro hmem
      have := (hprops2 d hmem).1
      exact this ((mem_setInsert d d rd).mpr (Or.inl rfl))
    refine ⟨d :: fresh2, List.nodup_cons.mpr ⟨hd_notfresh2, hnd2⟩, by
      simp [hlen2], ?_, ?_, ?_, ?_⟩
    · intro x
      rw [hstep, hmem2 x, mem_setInsert]
      constructor
      · rintro ((h | h) | h)
        · exact Or.inr (List.mem_cons.mpr (Or.inl h))
        · exact Or.inl h
        · exact Or.inr (List.mem_cons.mpr (Or.inr h))
      · rintro (h | h)
        · exact Or.inl (Or.inr h)
        · rcases List.mem_cons.mp h with h | h
          · exact Or.inl (Or.inl h)
          · exact Or.inr h
    · intro x hx
      rcases List.mem_cons.mp hx with h | h
      · subst h
        refine ⟨hd_notmem, by omega, ?_⟩
        rw [hstep, hunch2 d hd_notfresh2, mapFind_mapSet_self]
      · have h1 := hprops2 x h
        refine ⟨?_, h1.2.1, ?_⟩
        · intro hx2
          exact h1.1 ((mem_setInsert d x rd).mpr (Or.inr hx2))
        · rw [hstep]
          exact h1.2.2
    · intro x hx
      have hxd : x ≠ d := fun h => hx (h ▸ List.mem_cons_self d fresh2)
      have hxf : x ∉ fresh2 :=
        fun h => hx (List.mem_cons_of_mem d h)
      rw [hstep, hunch2 x hxf, mapFind_mapSet_ne _ _ _ _ hxd]
    · intro x hx y hy0 hyx hynotrd
      rcases List.mem_cons.mp hx with h | h
      · subst h
        exfalso
        by_cases hydom : y < domid
        · exact hynotrd (hcover y hy0 hydom)
        · exact hynotrd (hd_min y (by omega) hyx)
      · by_cases hyrd2 : y ∈ setInsert d rd
        · rcases (mem_setInsert d y rd).mp hyrd2 with h2 | h2
          · exact h2 ▸ List.mem_cons_self d fresh2
          · exact absurd h2 hynotrd
        · exact List.mem_cons_of_mem d (hdown2 x h y hy0 hyx hyrd2)

theorem reservedFold_sorted (chunks : List chunk_info) :
    ∀ s0 : List Int, List.Pairwise (· < ·) s0 →
    List.Pairwise (· < ·) (chunks.foldl
      (fun s c =>
        if c.destination_domain = FREE_DOMAIN_ID then s
        else setInsert c.destination_domain s) s0) := by
  induction chunks with
  | nil => intro s0 h; exact h
  | cons c cs ih =>
    intro s0 h
    rw [List.foldl_cons]
    by_cases hf : c.destination_domain = FREE_DOMAIN_ID
    · rw [if_pos hf]
      exact ih s0 h
    · rw [if_neg hf]
      exact ih _ (sorted_setInsert _ _ h)

theorem reservedFold_mem (chunks : List chunk_info) :
    ∀ (s0 : List Int) (x : Int),
    x ∈ chunks.foldl
      (fun s c =>
        if c.destination_domain = FREE_DOMAIN_ID then s
        else setInsert c.destination_domain s) s0 ↔
    x ∈ s0 ∨ ∃ c ∈ chunks, c.destination_domain = x ∧
      c.destination_domain ≠ FREE_DOMAIN_ID := by
  induction chunks with
  | nil =>
    intro s0 x
    simp
  | cons c cs ih =>
    intro s0 x
    rw [List.foldl_cons]
    by_cases hf : c.destination_domain = FREE_DOMAIN_ID
    · rw [if_pos hf, ih]
      constructor
      · rintro (h | ⟨c2, hc2, h1, h2⟩)
        · exact Or.inl h
        · exact Or.inr ⟨c2, List.mem_cons_of_mem c hc2, h1, h2⟩
      · rintro (h | ⟨c2, hc2, h1, h2⟩)
        · exact Or.inl h
        · rcases List.mem_cons.mp hc2 with h3 | h3
          · exact absurd (h3 ▸ hf) (h3 ▸ h2)
          · exact Or.inr ⟨c2, h3, h1, h2⟩
    · rw [if_neg hf, ih]
      constructor
      · rintro (h | ⟨c2, hc2, h1, h2⟩)
        · rcases (mem_setInsert _ _ _).mp h with h3 | h3
          · exact Or.inr ⟨c, List.mem_cons_self c cs, h3.symm, hf⟩
          · exact Or.inl h3
        · exact Or.inr ⟨c2, List.mem_cons_of_mem c hc2, h1, h2⟩
      · rintro (h | ⟨c2, hc2, h1, h2⟩)
        · exact Or.inl ((mem_setInsert _ _ _).mpr (Or.inr h))
        · rcases List.mem_cons.mp hc2 with h3 | h3
          · subst h3
            exact Or.inl ((mem_setInsert _ _ _).mpr (Or.inl h1.symm))
          · exact Or.inr ⟨c2, h3, h1, h2⟩

theorem reservedSet_sorted (chunks : List chunk_info) :
    List.Pairwise (· < ·) (reservedSet chunks) :=
  reservedFold_sorted chunks [] (List.Pairwise.nil)

theorem reservedSet_mem (chunks : List chunk_info) (x : Int) :
    x ∈ reservedSet chunks ↔ ∃ c ∈ chunks, c.destination_domain = x ∧
      c.destination_domain ≠ FREE_DOMAIN_ID := by
  rw [reservedSet, reservedFold_mem]
  simp

theorem initFold_sorted (chunks : List chunk_info) :
    ∀ m0 : List (Int × Nat), SortedKeys m0 →
    SortedKeys (chunks.foldl
      (fun m c =>
        if c.destination_domain ≠ FREE_DOMAIN_ID then
          mapAdd c.destination_domain c.num_elements m
        else m) m0) := by
  induction chunks with
  | nil => intro m0 h; exact h
  | cons c cs ih =>
    intro m0 h
    rw [List.foldl_cons]
    by_cases hf : c.destination_domain ≠ FREE_DOMAIN_ID
    · rw [if_pos hf]
      exact ih _ (sorted_mapAdd _ _ _ h)
    · rw [if_neg hf]
      exact ih m0 h

theorem initDomainCounts_sorted (chunks : List chunk_info) :
    SortedKeys (initDomainCounts chunks) :=
  initFold_sorted chunks [] (List.Pairwise.nil)

/-- C4. When the distinct reserved destination-domain ids outnumber the
target, map_chunks only warns (the result records the warning, the
reserved set and counts are untouched and no fresh id appears); otherwise
no warning fires and exactly target minus reserved fresh ids are created,
they are non-negative, unreserved, pairwise distinct, downward closed
among the non-reserved non-negative integers (hence the smallest such
integers), and each enters the count map with value zero while every
other count is unchanged. -/
theorem map_chunks_fresh_domains (target : Nat) (chunks : List chunk_info) :
    (reservedSet chunks).Nodup ∧
    (∀ d, d ∈ reservedSet chunks ↔ ∃ c ∈ chunks,
      c.destination_domain = d ∧
      c.destination_domain ≠ FREE_DOMAIN_ID) ∧
    ((reservedSet chunks).length > target →
      synthesizeDomains target (reservedSet chunks)
        (initDomainCounts chunks) =
        (true, reservedSet chunks, initDomainCounts chunks)) ∧
    ((reservedSet chunks).length ≤ target →
      (synthesizeDomains target (reservedSet chunks)
        (initDomainCounts chunks)).1 = false ∧
      ∃ fresh : List Int,
        fresh.Nodup ∧
        fresh.length = target - (reservedSet chunks).length ∧
        (∀ x, x ∈ (synthesizeDomains target (reservedSet chunks)
            (initDomainCounts chunks)).2.1 ↔
          x ∈ reservedSet chunks ∨ x ∈ fresh) ∧
        (∀ x ∈ fresh, x ∉ reservedSet chunks ∧ 0 ≤ x ∧
          mapFind (synthesizeDomains target (reservedSet chunks)
            (initDomainCounts chunks)).2.2 x = some 0) ∧
        (∀ x, x ∉ fresh →
          mapFind (synthesizeDomains target (reservedSet chunks)
            (initDomainCounts chunks)).2.2 x =
          mapFind (initDomainCounts chunks) x) ∧
        (∀ x ∈ fresh, ∀ y : Int, 0 ≤ y → y < x →
          y ∉ reservedSet chunks → y ∈ fresh)) := by
  refine ⟨nodup_of_sorted _ (reservedSet_sorted chunks),
    fun d => reservedSet_mem chunks d, ?_, ?_⟩
  · intro hgt
    simp [synthesizeDomains, hgt]
  · intro hle
    have hngt : ¬ (reservedSet chunks).length > target := by omega
    obtain ⟨fresh, hnd, hlen, hmem, hprops, hunch, hdown⟩ :=
      makeDomains_spec (target - (reservedSet chunks).length) 0
        (reservedSet chunks) (initDomainCounts chunks)
        (reservedSet_sorted chunks) (initDomainCounts_sorted chunks)
        (le_refl 0) (by intro y h1 h2; omega)
    refine ⟨by simp [synthesizeDomains, hngt], fresh, hnd, hlen, ?_, ?_, ?_, hdown⟩
    · intro x
      simp only [synthesizeDomains, if_neg hngt]
      exact hmem x
    · intro x hx
      refine ⟨(hprops x hx).1, (hprops x hx).2.1, ?_⟩
      simp only [synthesizeDomains, if_neg hngt]
      exact (hprops x hx).2.2
    · intro x hx
      simp only [synthesizeDomains, if_neg hngt]
      exact hunch x hx

/-! ## count_targets (claim C9) -/

theorem countTargetsFold (global_dd : List Int) :
    ∀ (c0 : Nat) (s0 : List Int), List.Pairwise (· < ·) s0 →
    (global_dd.foldl
      (fun (acc : Nat × List Int) dd =>
        if dd = FREE_DOMAIN_ID then (acc.1 + 1, acc.2)
        else (acc.1, setInsert dd acc.2)) (c0, s0)).1 =
      c0 + global_dd.countP (fun d => d = FREE_DOMAIN_ID) ∧
    List.Pairwise (· < ·) (global_dd.foldl
      (fun (acc : Nat × List Int) dd =>
        if dd = FREE_DOMAIN_ID then (acc.1 + 1, acc.2)
        else (acc.1, setInsert dd acc.2)) (c0, s0)).2 ∧
    (∀ x : Int, x ∈ (global_dd.foldl
      (fun (acc : Nat × List Int) dd =>
        if dd = FREE_DOMAIN_ID then (acc.1 + 1, acc.2)
        else (acc.1, setInsert dd acc.2)) (c0, s0)).2 ↔
      x ∈ s0 ∨ (x ∈ global_dd ∧ x ≠ FREE_DOMAIN_ID)) := by
  induction global_dd with
  | nil =>
    intro c0 s0 hs0
    refine ⟨by simp, hs0, ?_⟩
    intro x
    simp
  | cons dd rest ih =>
    intro c0 s0 hs0
    rw [List.foldl_cons]
    by_cases hf : dd = FREE_DOMAIN_ID
    · rw [if_pos hf]
      obtain ⟨h1, h2, h3⟩ := ih (c0 + 1) s0 hs0
      refine ⟨?_, h2, ?_⟩
      · rw [h1, List.countP_cons]
        simp [hf]
        omega
      · intro x
        rw [h3 x]
        constructor
        · rintro (h | ⟨h4, h5⟩)
          · exact Or.inl h
          · exact Or.inr ⟨List.mem_cons_of_mem dd h4, h5⟩
        · rintro (h | ⟨h4, h5⟩)
          · exact Or.inl h
          · rcases List.mem_cons.mp h4 with h6 | h6
            · exact absurd (h6.trans hf) h5
            · exact Or.inr ⟨h6, h5⟩
    · rw [if_neg hf]
      obtain ⟨h1, h2, h3⟩ := ih c0 (setInsert dd s0) (sorted_setInsert _ _ hs0)
      refine ⟨?_, h2, ?_⟩
      · rw [h1, List.countP_cons]
        simp [hf]
      · intro x
        rw [h3 x]
        constructor
        · rintro (h | ⟨h4, h5⟩)
          · rcases (mem_setInsert _ _ _).mp h with h6 | h6
            · exact Or.inr ⟨h6 ▸ List.mem_cons_self dd rest, h6 ▸ hf⟩
            · exact Or.inl h6
          · exact Or.inr ⟨List.mem_cons_of_mem dd h4, h5⟩
        · rintro (h | ⟨h4, h5⟩)
          · exact Or.inl ((mem_setInsert _ _ _).mpr (Or.inr h))
          · rcases List.mem_cons.mp h4 with h6 | h6
            · exact Or.inl ((mem_setInsert _ _ _).mpr (Or.inl h6))
            · exact Or.inr ⟨h6, h5⟩

/-- C9. count_targets returns the number of selections (across all ranks,
in gathered order) whose destination domain is FREE plus the number of
distinct non-FREE destination-domain ids, so several selections fixed to
the same domain contribute exactly one. -/
theorem count_targets_char (global_dd : List Int) :
    count_targets global_dd =
      global_dd.countP (fun d => d = FREE_DOMAIN_ID) +
      (global_dd.filter (fun d => d ≠ FREE_DOMAIN_ID)).toFinset.card := by
  obtain ⟨h1, h2, h3⟩ := countTargetsFold global_dd 0 [] List.Pairwise.nil
  rw [count_targets]
  rw [h1]
  congr 1
  · omega
  · have hnd : (global_dd.foldl
        (fun (acc : Nat × List Int) dd =>
          if dd = FREE_DOMAIN_ID then (acc.1 + 1, acc.2)
          else (acc.1, setInsert dd acc.2)) (0, [])).2.Nodup :=
      nodup_of_sorted _ h2
    have hfs : (global_dd.foldl
        (fun (acc : Nat × List Int) dd =>
          if dd = FREE_DOMAIN_ID then (acc.1 + 1, acc.2)
          else (acc.1, setInsert dd acc.2)) (0, [])).2.toFinset =
        (global_dd.filter (fun d => d ≠ FREE_DOMAIN_ID)).toFinset := by
      ext x
      rw [List.mem_toFinset, List.mem_toFinset, h3 x, List.mem_filter]
      simp
    rw [← List.toFinset_card_of_nodup hnd, hfs]

/-! ## foldMax and maxloc lemmas (claims C5 and C8) -/

theorem foldlMax_bounds (l : List Nat) :
    ∀ a : Nat,
      a ≤ l.foldl (fun x b => if x < b then b else x) a ∧
      (∀ x ∈ l, x ≤ l.foldl (fun x b => if x < b then b else x) a) ∧
      (l.foldl (fun x b => if x < b then b else x) a = a ∨
        l.foldl (fun x b => if x < b then b else x) a ∈ l) := by
  induction l with
  | nil =>
    intro a
    refine ⟨le_refl a, ?_, Or.inl rfl⟩
    intro x hx
    simp at hx
  | cons b l2 ih =>
    intro a
    rw [List.foldl_cons]
    by_cases h : a < b
    · rw [if_pos h]
      obtain ⟨h1, h2, h3⟩ := ih b
      refine ⟨by omega, ?_, ?_⟩
      · intro x hx
        rcases List.mem_cons.mp hx with h4 | h4
        · exact h4 ▸ h1
        · exact h2 x h4
      · rcases h3 with h4 | h4
        · refine Or.inr ?_
          rw [h4]
          exact List.mem_cons_self b l2
        · exact Or.inr (List.mem_cons_of_mem b h4)
    · rw [if_neg h]
      obtain ⟨h1, h2, h3⟩ := ih a
      refine ⟨h1, ?_, ?_⟩
      · intro x hx
        rcases List.mem_cons.mp hx with h4 | h4
        · subst h4
          omega
        · exact h2 x h4
      · rcases h3 with h4 | h4
        · exact Or.inl h4
        · exact Or.inr (List.mem_cons_of_mem b h4)

theorem foldMax_ge (l : List Nat) (x : Nat) (hx : x ∈ l) : x ≤ foldMax l :=
  (foldlMax_bounds l 0).2.1 x hx

theorem foldMax_zero_or_mem (l : List Nat) :
    foldMax l = 0 ∨ foldMax l ∈ l :=
  (foldlMax_bounds l 0).2.2

theorem foldMax_mem_of_pos (l : List Nat) (h : 0 < foldMax l) :
    foldMax l ∈ l := by
  rcases foldMax_zero_or_mem l with h2 | h2
  · omega
  · exact h2

/-- The MPI_MAXLOC scan keeps the pair with the largest value and, among
pairs with equal value, the one with the smallest rank, provided the rank
components are strictly increasing along the list. -/
theorem maxloc_foldl_spec (l : List (Nat × Nat)) :
    ∀ p0 : Nat × Nat,
    List.Pairwise (fun a b => a.2 < b.2) (p0 :: l) →
    (l.foldl (fun a b => if a.1 < b.1 then b else a) p0) ∈ p0 :: l ∧
    (∀ q ∈ p0 :: l,
      q.1 ≤ (l.foldl (fun a b => if a.1 < b.1 then b else a) p0).1) ∧
    (∀ q ∈ p0 :: l,
      q.1 = (l.foldl (fun a b => if a.1 < b.1 then b else a) p0).1 →
      (l.foldl (fun a b => if a.1 < b.1 then b else a) p0).2 ≤ q.2) := by
  induction l with
  | nil =>
    intro p0 _
    refine ⟨List.mem_cons_self p0 [], ?_, ?_⟩
    · intro q hq
      simp only [List.foldl_nil]
      rcases List.mem_cons.mp hq with h | h
      · rw [h]
      · simp at h
    · intro q hq _
      simp only [List.foldl_nil]
      rcases List.mem_cons.mp hq with h | h
      · rw [h]
      · simp at h
  | cons q l2 ih =>
    intro p0 hp
    rw [List.pairwise_cons] at hp
    have h0q : p0.2 < q.2 := hp.1 q (List.mem_cons_self q l2)
    have h0l : ∀ x ∈ l2, p0.2 < x.2 :=
      fun x hx => hp.1 x (List.mem_cons_of_mem q hx)
    by_cases hlt : p0.1 < q.1
    · have hfold :
          (q :: l2).foldl (fun a b => if a.1 < b.1 then b else a) p0 =
          l2.foldl (fun a b => if a.1 < b.1 then b else a) q := by
        simp [List.foldl_cons, hlt]
      obtain ⟨rmem, rmax, rtie⟩ := ih q hp.2
      rw [hfold]
      refine ⟨List.mem_cons_of_mem p0 rmem, ?_, ?_⟩
      · intro x hx
        rcases List.mem_cons.mp hx with h | h
        · have := rmax q (List.mem_cons_self q l2)
          rw [h]
          omega
        · exact rmax x h
      · intro x hx hx2
        rcases List.mem_cons.mp hx with h | h
        · exfalso
          have := rmax q (List.mem_cons_self q l2)
          rw [h] at hx2
          omega
        · exact rtie x h hx2
    · have hfold :
          (q :: l2).foldl (fun a b => if a.1 < b.1 then b else a) p0 =
          l2.foldl (fun a b => if a.1 < b.1 then b else a) p0 := by
        simp [List.foldl_cons, hlt]
      have hp2 : List.Pairwise (fun a b => a.2 < b.2) (p0 :: l2) := by
        rw [List.pairwise_cons]
        exact ⟨h0l, (List.pairwise_cons.mp hp.2).2⟩
      obtain ⟨rmem, rmax, rtie⟩ := ih p0 hp2
      rw [hfold]
      refine ⟨?_, ?_, ?_⟩
      · rcases List.mem_cons.mp rmem with h | h
        · rw [h]
          exact List.mem_cons_self p0 _
        · exact List.mem_cons_of_mem p0 (List.mem_cons_of_mem q h)
      · intro x hx
        rcases List.mem_cons.mp hx with h | h
        · rw [h]
          exact rmax p0 (List.mem_cons_self p0 l2)
        · rcases List.mem_cons.mp h with h2 | h2
          · rw [h2]
            have := rmax p0 (List.mem_cons_self p0 l2)
            omega
          · exact rmax x (List.mem_cons_of_mem p0 h2)
      · intro x hx hx2
        rcases List.mem_cons.mp hx with h | h
        · refine rtie x ?_ hx2
          rw [h]
          exact List.mem_cons_self p0 l2
        · rcases List.mem_cons.mp h with h2 | h2
          · subst h2
            rcases List.mem_cons.mp rmem with h3 | h3
            · rw [h3]
              omega
            · exfalso
              have h4 := rmax p0 (List.mem_cons_self p0 l2)
              have h5 := h0l _ h3
              by_cases h6 : p0.1 =
                  (l2.foldl (fun a b => if a.1 < b.1 then b else a) p0).1
              · have h7 := rtie p0 (List.mem_cons_self p0 l2) h6
                omega
              · omega
          · exact rtie x (List.mem_cons_of_mem p0 h2) hx2

theorem findIdx?_offset_spec (l : List Nat) (t : Nat) :
    ∀ i0 i : Nat, List.findIdx? (fun s => s = t) l i0 = some i →
      i0 ≤ i ∧ i - i0 < l.length ∧ l.getD (i - i0) 0 = t ∧
      ∀ j, j < i - i0 → l.getD j 0 ≠ t := by
  induction l with
  | nil =>
    intro i0 i h
    simp [List.findIdx?] at h
  | cons a l2 ih =>
    intro i0 i h
    rw [List.findIdx?_cons] at h
    by_cases ha : a = t
    · rw [if_pos (by simp [ha])] at h
      have hi : i = i0 := by
        injection h with h2
        omega
      subst hi
      refine ⟨le_refl _, by simp, ?_, ?_⟩
      · simp [ha]
      · intro j hj
        omega
    · rw [if_neg (by simp [ha])] at h
      obtain ⟨h1, h2, h3, h4⟩ := ih (i0 + 1) i h
      have hii : i - i0 = (i - (i0 + 1)) + 1 := by omega
      refine ⟨by omega, by simp; omega, ?_, ?_⟩
      · rw [hii]
        simpa using h3
      · intro j hj
        cases j with
        | zero => simpa using ha
        | succ j2 =>
          have := h4 j2 (by omega)
          simpa using this

theorem findIdx?_some_spec (l : List Nat) (t : Nat) (i : Nat)
    (h : List.findIdx? (fun s => s = t) l = some i) :
    i < l.length ∧ l.getD i 0 = t ∧ ∀ j, j < i → l.getD j 0 ≠ t := by
  obtain ⟨h1, h2, h3, h4⟩ := findIdx?_offset_spec l t 0 i h
  simp only [Nat.sub_zero] at h2 h3 h4
  exact ⟨h2, h3, h4⟩

theorem findIdx?_mem_some (l : List Nat) (t : Nat) (h : t ∈ l) :
    ∀ i0 : Nat, ∃ i, List.findIdx? (fun s => s = t) l i0 = some i := by
  induction l with
  | nil => simp at h
  | cons a l2 ih =>
    intro i0
    rw [List.findIdx?_cons]
    by_cases ha : a = t
    · exact ⟨i0, by rw [if_pos (by simp [ha])]⟩
    · rcases List.mem_cons.mp h with h2 | h2
      · exact absurd h2.symm ha
      · obtain ⟨i, hi⟩ := ih h2 (i0 + 1)
        exact ⟨i, by rw [if_neg (by simp [ha])]; exact hi⟩

/-- C5, amended: when at least one selection has a positive element
count, get_largest_selection returns the rank and local index of a
selection of maximal element count, ties broken by lowest rank then
lowest local index. -/
theorem get_largest_selection_amended (sizes : List (List Nat))
    (hpos : ∃ row ∈ sizes, ∃ s ∈ row, 0 < s) :
    largestSelClaimHolds sizes := by
  obtain ⟨row0, hrow0, s0, hs0, hs0pos⟩ := hpos
  have hn : 0 < sizes.length :=
    List.length_pos.mpr (List.ne_nil_of_mem hrow0)
  cases hc : (List.range sizes.length).map
      (fun r => (foldMax (sizes.getD r []), r)) with
  | nil =>
    exfalso
    have hlen := congrArg List.length hc
    simp only [List.length_map, List.length_range, List.length_nil] at hlen
    omega
  | cons p0 rest =>
    have hpair : List.Pairwise (fun a b => a.2 < b.2) (p0 :: rest) := by
      rw [← hc, List.pairwise_map]
      exact List.pairwise_lt_range sizes.length
    obtain ⟨rmem, rmax, rtie⟩ := maxloc_foldl_spec rest p0 hpair
    set G := rest.foldl (fun a b => if a.1 < b.1 then b else a) p0
      with hGdef
    have hmem2 : G ∈ (List.range sizes.length).map
        (fun r => (foldMax (sizes.getD r []), r)) := by
      rw [hc]
      exact rmem
    obtain ⟨rn, hrn_mem, hrn_eq⟩ := List.mem_map.mp hmem2
    have hrn_lt : rn < sizes.length := List.mem_range.mp hrn_mem
    have hG : G = (foldMax (sizes.getD rn []), rn) := hrn_eq.symm
    obtain ⟨r0, hr0_lt, hr0_eq⟩ := List.mem_iff_getElem.mp hrow0
    have hrow0_getD : sizes.getD r0 [] = row0 := by
      rw [List.getD_eq_getElem _ _ hr0_lt, hr0_eq]
    have hcontrib0 : (foldMax (sizes.getD r0 []), r0) ∈ p0 :: rest := by
      rw [← hc]
      exact List.mem_map_of_mem _ (List.mem_range.mpr hr0_lt)
    have hG1 : G.1 = foldMax (sizes.getD rn []) := by rw [hG]
    have hG2 : G.2 = rn := by rw [hG]
    have hMpos : 0 < G.1 := by
      have h1 : s0 ≤ foldMax row0 := foldMax_ge row0 s0 hs0
      have h2 : foldMax row0 ≤ G.1 := by
        have h2a := rmax _ hcontrib0
        rw [hrow0_getD] at h2a
        exact h2a
      omega
    have hMmem : G.1 ∈ sizes.getD rn [] := by
      rw [hG1] at hMpos ⊢
      exact foldMax_mem_of_pos _ hMpos
    obtain ⟨kn, hkn⟩ := findIdx?_mem_some _ _ hMmem 0
    obtain ⟨hkn_lt, hkn_val, hkn_min⟩ := findIdx?_some_spec _ _ _ hkn
    have hres : get_largest_selection sizes = ((rn : Int), (kn : Int)) := by
      simp only [get_largest_selection, hc, maxlocReduce, ← hGdef, hG2]
      rw [hkn]
    refine ⟨rn, kn, by rw [hres], by rw [hres], hrn_lt, hkn_lt, ?_, ?_, ?_⟩
    · intro row hrow s hs
      rw [hkn_val]
      obtain ⟨r2, hr2_lt, hr2_eq⟩ := List.mem_iff_getElem.mp hrow
      have hrow_getD : sizes.getD r2 [] = row := by
        rw [List.getD_eq_getElem _ _ hr2_lt, hr2_eq]
      have hcontrib2 : (foldMax (sizes.getD r2 []), r2) ∈ p0 :: rest := by
        rw [← hc]
        exact List.mem_map_of_mem _ (List.mem_range.mpr hr2_lt)
      have h2 : foldMax row ≤ G.1 := by
        have h2a := rmax _ hcontrib2
        rw [hrow_getD] at h2a
        exact h2a
      have h3 : s ≤ foldMax row := foldMax_ge row s hs
      omega
    · intro r2 hr2 s hs
      rw [hkn_val]
      have hr2_lt : r2 < sizes.length := by omega
      have hcontrib2 : (foldMax (sizes.getD r2 []), r2) ∈ p0 :: rest := by
        rw [← hc]
        exact List.mem_map_of_mem _ (List.mem_range.mpr hr2_lt)
      have h2 : foldMax (sizes.getD r2 []) ≤ G.1 :=
        rmax _ hcontrib2
      have h3 : s ≤ foldMax (sizes.getD r2 []) := foldMax_ge _ s hs
      have h4 : foldMax (sizes.getD r2 []) ≠ G.1 := by
        intro heq
        have h6 : G.2 ≤ r2 :=
          rtie (foldMax (sizes.getD r2 []), r2) hcontrib2 heq
        rw [hG2] at h6
        omega
      omega
    · intro k2 hk2
      rw [hkn_val]
      have hval := hkn_min k2 hk2
      have hk2_lt : k2 < (sizes.getD rn []).length := by omega
      have hmem3 : (sizes.getD rn []).getD k2 0 ∈ sizes.getD rn [] := by
        rw [List.getD_eq_getElem _ _ hk2_lt]
        exact List.getElem_mem hk2_lt
      have h2 : (sizes.getD rn []).getD k2 0 ≤ foldMax (sizes.getD rn []) :=
        foldMax_ge _ _ hmem3
      omega

/-- C5, counterexample: with rank 0 holding no selection and rank 1
holding one empty selection, the MAXLOC reduction elects rank 0 (every
contribution is zero and ties pick the lower rank) and the local scan
returns index -1, so the result does not name any selection at all. -/
theorem get_largest_selection_cex : ¬ largestSelClaimHolds [[], [0]] := by
  rintro ⟨rn, kn, h1, h2, h3⟩
  have hcomp : (get_largest_selection [[], [0]]).2 = -1 := by decide
  rw [hcomp] at h2
  omega

/-- C8. In parallel the resolved target is the maximum of the per-rank
target values, a rank without the option contributing zero, and the
method reports success exactly when that maximum is positive. -/
theorem options_get_target_max (provided : List (Option Nat)) :
    (∀ p ∈ provided, base_target_value p ≤ (options_get_target provided).1) ∧
    ((options_get_target provided).1 = 0 ∨
      ∃ p ∈ provided, base_target_value p = (options_get_target provided).1) ∧
    ((options_get_target provided).2 = true ↔
      ∃ p ∈ provided, 0 < base_target_value p) := by
  have hval : (options_get_target provided).1 =
      foldMax (provided.map base_target_value) := rfl
  refine ⟨?_, ?_, ?_⟩
  · intro p hp
    rw [hval]
    exact foldMax_ge _ _ (List.mem_map_of_mem base_target_value hp)
  · rw [hval]
    rcases foldMax_zero_or_mem (provided.map base_target_value) with h | h
    · exact Or.inl h
    · obtain ⟨p, hp, hpe⟩ := List.mem_map.mp h
      exact Or.inr ⟨p, hp, hpe⟩
  · have hsnd : (options_get_target provided).2 =
        decide (0 < foldMax (provided.map base_target_value)) := rfl
    rw [hsnd]
    constructor
    · intro h
      have hpos : 0 < foldMax (provided.map base_target_value) :=
        of_decide_eq_true h
      obtain ⟨p, hp, hpe⟩ := List.mem_map.mp
        (foldMax_mem_of_pos _ hpos)
      exact ⟨p, hp, by omega⟩
    · rintro ⟨p, hp, hppos⟩
      have h1 : base_target_value p ≤
          foldMax (provided.map base_target_value) :=
        foldMax_ge _ _ (List.mem_map_of_mem base_target_value hp)
      exact decide_eq_true (by omega)

/-! ## Rank assignment machinery (claims C1 and C3) -/

theorem getD_map_pair (f : (Int × Int) → (Int × Int))
    (l : List (Int × Int)) (i : Nat) (hi : i < l.length)
    (d : Int × Int) :
    (l.map f).getD i d = f (l.getD i d) := by
  rw [List.getD_eq_getElem _ _ (by simpa using hi),
    List.getD_eq_getElem _ _ hi, List.getElem_map]

theorem mmapInsert_perm (p : Nat × Int) (l : List (Nat × Int)) :
    (mmapInsert p l).Perm (p :: l) := by
  induction l with
  | nil => exact List.Perm.refl _
  | cons q qs ih =>
    by_cases h : p.1 < q.1
    · simp only [mmapInsert, if_pos h]
      exact List.Perm.refl _
    · simp only [mmapInsert, if_neg h]
      exact (ih.cons q).trans (List.Perm.swap p q qs)

theorem mem_mmapInsert (x p : Nat × Int) (l : List (Nat × Int))
    (hx : x ∈ mmapInsert p l) : x = p ∨ x ∈ l := by
  have := (mmapInsert_perm p l).mem_iff.mp hx
  simpa using this

theorem mmapInsert_sorted (p : Nat × Int) (l : List (Nat × Int))
    (hl : List.Pairwise (fun a b => a.1 ≤ b.1) l) :
    List.Pairwise (fun a b => a.1 ≤ b.1) (mmapInsert p l) := by
  induction l with
  | nil => simp [mmapInsert]
  | cons q qs ih =>
    rw [List.pairwise_cons] at hl
    by_cases h : p.1 < q.1
    · simp only [mmapInsert, if_pos h]
      refine List.Pairwise.cons ?_ (List.Pairwise.cons hl.1 hl.2)
      intro x hx
      rcases List.mem_cons.mp hx with h2 | h2
      · rw [h2]; omega
      · have := hl.1 x h2
        omega
    · simp only [mmapInsert, if_neg h]
      refine List.Pairwise.cons ?_ (ih hl.2)
      intro x hx
      rcases mem_mmapInsert x p qs hx with h2 | h2
      · rw [h2]; omega
      · exact hl.1 x h2

theorem sizeToDomain_perm (domCounts : List (Int × Nat)) (dta : List Int) :
    (sizeToDomain domCounts dta).Perm
      (dta.map (fun d => (mapGetD domCounts d 0, d))) := by
  rw [sizeToDomain]
  suffices h : ∀ acc : List (Nat × Int),
      (dta.foldl (fun mm d => mmapInsert (mapGetD domCounts d 0, d) mm)
        acc).Perm
      (acc ++ dta.map (fun d => (mapGetD domCounts d 0, d))) by
    simpa using h []
  induction dta with
  | nil => intro acc; simp
  | cons d rest ih =>
    intro acc
    rw [List.foldl_cons]
    refine (ih _).trans ?_
    refine ((mmapInsert_perm (mapGetD domCounts d 0, d) acc).append_right
      _).trans ?_
    simp only [List.map_cons, List.cons_append]
    exact List.perm_middle.symm

theorem sizeToDomain_sorted (domCounts : List (Int × Nat))
    (dta : List Int) :
    List.Pairwise (fun a b => a.1 ≤ b.1) (sizeToDomain domCounts dta) := by
  rw [sizeToDomain]
  suffices h : ∀ acc : List (Nat × Int),
      List.Pairwise (fun a b => a.1 ≤ b.1) acc →
      List.Pairwise (fun a b => a.1 ≤ b.1)
        (dta.foldl (fun mm d => mmapInsert (mapGetD domCounts d 0, d) mm)
          acc) by
    exact h [] List.Pairwise.nil
  induction dta with
  | nil => intro acc h; exact h
  | cons d rest ih =>
    intro acc h
    rw [List.foldl_cons]
    exact ih _ (mmapInsert_sorted _ _ h)

theorem domainsToAssign_sorted (cs : List (chunk_info × Int)) :
    List.Pairwise (· < ·) (domainsToAssign cs) := by
  rw [domainsToAssign]
  suffices h : ∀ acc : List Int, List.Pairwise (· < ·) acc →
      List.Pairwise (· < ·) (cs.foldl
        (fun s c =>
          if c.1.destination_rank = FREE_RANK_ID then setInsert c.2 s
          else s) acc) by
    exact h [] List.Pairwise.nil
  induction cs with
  | nil => intro acc h; exact h
  | cons c rest ih =>
    intro acc h
    rw [List.foldl_cons]
    by_cases hf : c.1.destination_rank = FREE_RANK_ID
    · rw [if_pos hf]
      exact ih _ (sorted_setInsert _ _ h)
    · rw [if_neg hf]
      exact ih _ h

theorem domainsToAssign_mem (cs : List (chunk_info × Int)) (d : Int) :
    d ∈ domainsToAssign cs ↔
      ∃ c ∈ cs, c.1.destination_rank = FREE_RANK_ID ∧ c.2 = d := by
  rw [domainsToAssign]
  suffices h : ∀ acc : List Int,
      (d ∈ cs.foldl
        (fun s c =>
          if c.1.destination_rank = FREE_RANK_ID then setInsert c.2 s
          else s) acc ↔
      d ∈ acc ∨ ∃ c ∈ cs, c.1.destination_rank = FREE_RANK_ID ∧
        c.2 = d) by
    rw [h []]
    simp
  induction cs with
  | nil =>
    intro acc
    simp
  | cons c rest ih =>
    intro acc
    rw [List.foldl_cons]
    by_cases hf : c.1.destination_rank = FREE_RANK_ID
    · rw [if_pos hf, ih]
      constructor
      · rintro (h | ⟨c2, hc2, h1, h2⟩)
        · rcases (mem_setInsert _ _ _).mp h with h2 | h2
          · exact Or.inr ⟨c, List.mem_cons_self c rest, hf, h2.symm⟩
          · exact Or.inl h2
        · exact Or.inr ⟨c2, List.mem_cons_of_mem c hc2, h1, h2⟩
      · rintro (h | ⟨c2, hc2, h1, h2⟩)
        · exact Or.inl ((mem_setInsert _ _ _).mpr (Or.inr h))
        · rcases List.mem_cons.mp hc2 with h3 | h3
          · subst h3
            exact Or.inl ((mem_setInsert _ _ _).mpr (Or.inl h2.symm))
          · exact Or.inr ⟨c2, h3, h1, h2⟩
    · rw [if_neg hf, ih]
      constructor
      · rintro (h | ⟨c2, hc2, h1, h2⟩)
        · exact Or.inl h
        · exact Or.inr ⟨c2, List.mem_cons_of_mem c hc2, h1, h2⟩
      · rintro (h | ⟨c2, hc2, h1, h2⟩)
        · exact Or.inl h
        · rcases List.mem_cons.mp hc2 with h3 | h3
          · exact absurd (h3 ▸ h1) (h3 ▸ hf)
          · exact Or.inr ⟨c2, h3, h1, h2⟩

theorem rankCountsInit_base_sorted (size : Nat) :
    SortedKeys
      ((List.range size).map (fun i : Nat => ((i : Int), (0 : Nat)))) := by
  rw [SortedKeys, List.pairwise_map]
  refine (List.pairwise_lt_range size).imp ?_
  intro a b h
  show (a : Int) < (b : Int)
  exact_mod_cast h

theorem rankCountsInit_sorted (size : Nat) (cs : List (chunk_info × Int)) :
    SortedKeys (rankCountsInit size cs) := by
  rw [rankCountsInit]
  suffices h : ∀ m0 : List (Int × Nat), SortedKeys m0 →
      SortedKeys (cs.foldl
        (fun m c =>
          if c.1.destination_rank = FREE_RANK_ID then m
          else mapAdd c.1.destination_rank c.1.num_elements m) m0) by
    exact h _ (rankCountsInit_base_sorted size)
  induction cs with
  | nil => intro m0 h; exact h
  | cons c rest ih =>
    intro m0 h
    rw [List.foldl_cons]
    by_cases hf : c.1.destination_rank = FREE_RANK_ID
    · rw [if_pos hf]; exact ih _ h
    · rw [if_neg hf]; exact ih _ (sorted_mapAdd _ _ _ h)

theorem rankCountsInit_ne_nil (size : Nat) (cs : List (chunk_info × Int))
    (hsize : 1 ≤ size) : rankCountsInit size cs ≠ [] := by
  rw [rankCountsInit]
  suffices h : ∀ m0 : List (Int × Nat), m0 ≠ [] →
      cs.foldl
        (fun m c =>
          if c.1.destination_rank = FREE_RANK_ID then m
          else mapAdd c.1.destination_rank c.1.num_elements m) m0 ≠ [] by
    refine h _ ?_
    have : 0 < size := hsize
    cases hs : List.range size with
    | nil =>
      exfalso
      have := congrArg List.length hs
      simp at this
      omega
    | cons a l => simp
  induction cs with
  | nil => intro m0 h; exact h
  | cons c rest ih =>
    intro m0 h
    rw [List.foldl_cons]
    by_cases hf : c.1.destination_rank = FREE_RANK_ID
    · rw [if_pos hf]; exact ih _ h
    · rw [if_neg hf]; exact ih _ (mapAdd_ne_nil _ _ _)

theorem rankCountsInit_keys (size : Nat) (cs : List (chunk_info × Int)) :
    ∀ q ∈ rankCountsInit size cs, q.1 ≠ FREE_RANK_ID := by
  rw [rankCountsInit]
  suffices h : ∀ m0 : List (Int × Nat),
      (∀ q ∈ m0, q.1 ≠ FREE_RANK_ID) →
      ∀ q ∈ cs.foldl
        (fun m c =>
          if c.1.destination_rank = FREE_RANK_ID then m
          else mapAdd c.1.destination_rank c.1.num_elements m) m0,
        q.1 ≠ FREE_RANK_ID by
    refine h _ ?_
    intro q hq
    obtain ⟨i, _, hieq⟩ := List.mem_map.mp hq
    rw [← hieq]
    show ¬ ((i : Int) = -1)
    omega
  induction cs with
  | nil => intro m0 h; exact h
  | cons c rest ih =>
    intro m0 h
    rw [List.foldl_cons]
    by_cases hf : c.1.destination_rank = FREE_RANK_ID
    · rw [if_pos hf]; exact ih _ h
    · rw [if_neg hf]
      refine ih _ ?_
      intro q hq
      rcases mem_mapAdd q _ _ _ hq with h2 | h2
      · rw [h2]; exact hf
      · exact h q h2

theorem rankAssignLoop_append (xs ys : List (Nat × Int))
    (rc : List (Int × Nat)) (prs : List (Int × Int)) :
    rankAssignLoop (xs ++ ys) rc prs =
      rankAssignLoop ys (rankAssignLoop xs rc prs).1
        (rankAssignLoop xs rc prs).2 := by
  induction xs generalizing rc prs with
  | nil => simp [rankAssignLoop]
  | cons x rest ih =>
    cases x with
    | mk cnt domid =>
      rw [List.cons_append]
      simp only [rankAssignLoop]
      exact ih _ _

theorem rankAssignLoop_length (proc : List (Nat × Int)) :
    ∀ (rc : List (Int × Nat)) (prs : List (Int × Int)),
      (rankAssignLoop proc rc prs).2.length = prs.length := by
  induction proc with
  | nil => intro rc prs; rfl
  | cons x rest ih =>
    intro rc prs
    cases x with
    | mk cnt domid =>
      simp only [rankAssignLoop]
      rw [ih]
      simp

theorem rankAssignLoop_fst (proc : List (Nat × Int)) :
    ∀ (rc : List (Int × Nat)) (prs : List (Int × Int)) (i : Nat),
      i < prs.length →
      ((rankAssignLoop proc rc prs).2.getD i defaultPair).1 =
        (prs.getD i defaultPair).1 := by
  induction proc with
  | nil => intro rc prs i _; rfl
  | cons x rest ih =>
    intro rc prs i hi
    cases x with
    | mk cnt domid =>
      have hpoint : ∀ q : Int × Int,
          (if q.1 = domid then
            (q.1, ((argminFirst rc).getD (FREE_RANK_ID, 0)).1)
          else q).1 = q.1 := by
        intro q
        by_cases h : q.1 = domid <;> simp [h]
      simp only [rankAssignLoop]
      rw [ih _ _ i (by simpa using hi)]
      rw [getD_map_pair _ _ _ hi]
      exact hpoint _

theorem rankAssignLoop_rc_inv (proc : List (Nat × Int)) :
    ∀ rc : List (Int × Nat), ∀ prs : List (Int × Int),
      SortedKeys rc → rc ≠ [] →
      SortedKeys (rankAssignLoop proc rc prs).1 ∧
      (rankAssignLoop proc rc prs).1 ≠ [] := by
  induction proc with
  | nil => intro rc prs h1 h2; exact ⟨h1, h2⟩
  | cons x rest ih =>
    intro rc prs h1 h2
    cases x with
    | mk cnt domid =>
      simp only [rankAssignLoop]
      exact ih _ _ (sorted_mapSet _ _ _ h1) (mapSet_ne_nil _ _ _)

theorem rankAssignLoop_untouched (proc : List (Nat × Int)) :
    ∀ (rc : List (Int × Nat)) (prs : List (Int × Int)) (i : Nat),
      i < prs.length →
      (prs.getD i defaultPair).1 ∉ proc.map Prod.snd →
      (rankAssignLoop proc rc prs).2.getD i defaultPair =
        prs.getD i defaultPair := by
  induction proc with
  | nil => intro rc prs i _ _; rfl
  | cons x rest ih =>
    intro rc prs i hi hmem
    cases x with
    | mk cnt domid =>
      simp only [List.map_cons, List.mem_cons] at hmem
      push_neg at hmem
      simp only [rankAssignLoop]
      have hstep : (prs.map
          (fun q => if q.1 = domid then
            (q.1, ((argminFirst rc).getD (FREE_RANK_ID, 0)).1) else q)).getD
          i defaultPair = prs.getD i defaultPair := by
        rw [getD_map_pair _ _ _ hi]
        rw [if_neg hmem.1]
      rw [ih _ _ i (by simpa using hi) (by rw [hstep]; exact hmem.2)]
      rw [hstep]

/-- Processing a domain writes one common, non-FREE rank into every chunk
of that domain, and later steps (all for other domains) leave those
entries alone. -/
theorem rankAssignLoop_broadcast (proc : List (Nat × Int)) :
    ∀ (rc : List (Int × Nat)) (prs : List (Int × Int)),
      SortedKeys rc → rc ≠ [] → (∀ q ∈ rc, q.1 ≠ FREE_RANK_ID) →
      (proc.map Prod.snd).Nodup →
      ∀ i j : Nat, i < prs.length → j < prs.length →
      (prs.getD i defaultPair).1 = (prs.getD j defaultPair).1 →
      (prs.getD i defaultPair).1 ∈ proc.map Prod.snd →
      (rankAssignLoop proc rc prs).2.getD i defaultPair =
        (rankAssignLoop proc rc prs).2.getD j defaultPair ∧
      ((rankAssignLoop proc rc prs).2.getD i defaultPair).2 ≠
        FREE_RANK_ID := by
  induction proc with
  | nil =>
    intro rc prs _ _ _ _ i j _ _ _ hmem
    simp at hmem
  | cons x rest ih =>
    intro rc prs hsort hne hkeys hnd i j hi hj heq hmem
    cases x with
    | mk cnt domid =>
      obtain ⟨pm, hpm_eq, hpm_mem, _, _⟩ := argminFirst_spec rc hsort hne
      have hp : (argminFirst rc).getD (FREE_RANK_ID, 0) = pm := by
        rw [hpm_eq]
        rfl
      have hpk : pm.1 ≠ FREE_RANK_ID := hkeys pm hpm_mem
      rw [List.map_cons, List.nodup_cons] at hnd
      simp only [rankAssignLoop]
      rw [hp]
      by_cases hcase : (prs.getD i defaultPair).1 = domid
      · have hcase2 : (prs.getD j defaultPair).1 = domid := heq ▸ hcase
        have hgi : (prs.map
            (fun q => if q.1 = domid then (q.1, pm.1) else q)).getD i
            defaultPair = ((prs.getD i defaultPair).1, pm.1) := by
          rw [getD_map_pair _ _ _ hi, if_pos hcase]
        have hgj : (prs.map
            (fun q => if q.1 = domid then (q.1, pm.1) else q)).getD j
            defaultPair = ((prs.getD j defaultPair).1, pm.1) := by
          rw [getD_map_pair _ _ _ hj, if_pos hcase2]
        have hui := rankAssignLoop_untouched rest
          (mapSet pm.1 (pm.2 + cnt) rc)
          (prs.map (fun q => if q.1 = domid then (q.1, pm.1) else q))
          i (by simpa using hi)
          (by
            rw [hgi]
            show (prs.getD i defaultPair).1 ∉ List.map Prod.snd rest
            rw [hcase]
            exact hnd.1)
        have huj := rankAssignLoop_untouched rest
          (mapSet pm.1 (pm.2 + cnt) rc)
          (prs.map (fun q => if q.1 = domid then (q.1, pm.1) else q))
          j (by simpa using hj)
          (by
            rw [hgj]
            show (prs.getD j defaultPair).1 ∉ List.map Prod.snd rest
            rw [hcase2]
            exact hnd.1)
        rw [hui, huj, hgi, hgj]
        refine ⟨by rw [heq], hpk⟩
      · have hcase2 : ¬ (prs.getD j defaultPair).1 = domid := heq ▸ hcase
        have hgi : (prs.map
            (fun q => if q.1 = domid then (q.1, pm.1) else q)).getD i
            defaultPair = prs.getD i defaultPair := by
          rw [getD_map_pair _ _ _ hi, if_neg hcase]
        have hgj : (prs.map
            (fun q => if q.1 = domid then (q.1, pm.1) else q)).getD j
            defaultPair = prs.getD j defaultPair := by
          rw [getD_map_pair _ _ _ hj, if_neg hcase2]
        refine ih (mapSet pm.1 (pm.2 + cnt) rc) _
          (sorted_mapSet _ _ _ hsort) (mapSet_ne_nil _ _ _) ?_ hnd.2
          i j (by simpa using hi) (by simpa using hj) ?_ ?_
        · intro q hq
          rcases mem_mapSet q _ _ _ hq with h2 | h2
          · rw [h2]; exact hpk
          · exact hkeys q h2
        · rw [hgi, hgj]; exact heq
        · rw [hgi]
          rcases List.mem_cons.mp hmem with h2 | h2
          · exact absurd h2 hcase
          · exact h2

theorem getD_map_general {α β : Type} (f : α → β) (l : List α) (i : Nat)
    (hi : i < l.length) (d : β) (d2 : α) :
    (l.map f).getD i d = f (l.getD i d2) := by
  rw [List.getD_eq_getElem _ _ (by simpa using hi),
    List.getD_eq_getElem _ _ hi, List.getElem_map]

theorem initDomainCounts_keys (chunks : List chunk_info) :
    ∀ q ∈ initDomainCounts chunks, q.1 ≠ FREE_DOMAIN_ID := by
  rw [initDomainCounts]
  suffices h : ∀ m0 : List (Int × Nat),
      (∀ q ∈ m0, q.1 ≠ FREE_DOMAIN_ID) →
      ∀ q ∈ chunks.foldl
        (fun m c =>
          if c.destination_domain ≠ FREE_DOMAIN_ID then
            mapAdd c.destination_domain c.num_elements m
          else m) m0, q.1 ≠ FREE_DOMAIN_ID by
    exact h [] (by simp)
  induction chunks with
  | nil => intro m0 h; exact h
  | cons c rest ih =>
    intro m0 h
    rw [List.foldl_cons]
    by_cases hf : c.destination_domain ≠ FREE_DOMAIN_ID
    · rw [if_pos hf]
      refine ih _ ?_
      intro q hq
      rcases mem_mapAdd q _ _ _ hq with h2 | h2
      · rw [h2]; exact hf
      · exact h q h2
    · rw [if_neg hf]
      exact ih _ h

theorem makeDomains_keys (k : Nat) :
    ∀ (domid : Int) (rd : List Int) (m : List (Int × Nat)),
      0 ≤ domid →
      ∀ q ∈ (makeDomains k domid rd m).2, q ∈ m ∨ 0 ≤ q.1 := by
  induction k with
  | zero => intro domid rd m _ q hq; exact Or.inl hq
  | succ n ih =>
    intro domid rd m h0 q hq
    have hd_ge : domid ≤ skipReserved rd.length rd domid :=
      skipReserved_ge _ _ _
    have hstep : makeDomains (n + 1) domid rd m =
        makeDomains n (skipReserved rd.length rd domid)
          (setInsert (skipReserved rd.length rd domid) rd)
          (mapSet (skipReserved rd.length rd domid) 0 m) := rfl
    rw [hstep] at hq
    rcases ih _ _ _ (by omega) q hq with h2 | h2
    · rcases mem_mapSet q _ _ _ h2 with h3 | h3
      · right; omega
      · exact Or.inl h3
    · exact Or.inr h2

theorem makeDomains_preserve_ne_nil (k : Nat) :
    ∀ (domid : Int) (rd : List Int) (m : List (Int × Nat)),
      m ≠ [] → (makeDomains k domid rd m).2 ≠ [] := by
  induction k with
  | zero => intro domid rd m h; exact h
  | succ n ih =>
    intro domid rd m _
    exact ih _ _ _ (mapSet_ne_nil _ _ _)

theorem makeDomains_pos_ne_nil (k : Nat) (hk : 1 ≤ k) :
    ∀ (domid : Int) (rd : List Int) (m : List (Int × Nat)),
      (makeDomains k domid rd m).2 ≠ [] := by
  cases k with
  | zero => omega
  | succ n =>
    intro domid rd m
    exact makeDomains_preserve_ne_nil n _ _ _ (mapSet_ne_nil _ _ _)

theorem makeDomains_sorted (k : Nat) :
    ∀ (domid : Int) (rd : List Int) (m : List (Int × Nat)),
      SortedKeys m → SortedKeys (makeDomains k domid rd m).2 := by
  induction k with
  | zero => intro domid rd m h; exact h
  | succ n ih =>
    intro domid rd m h
    exact ih _ _ _ (sorted_mapSet _ _ _ h)

theorem reservedSet_nonempty_counts (chunks : List chunk_info)
    (h : reservedSet chunks ≠ []) : initDomainCounts chunks ≠ [] := by
  cases hr : reservedSet chunks with
  | nil => exact absurd hr h
  | cons d rest =>
    have hd : d ∈ reservedSet chunks := by
      rw [hr]
      exact List.mem_cons_self d rest
    obtain ⟨c, hc, h1, h2⟩ := (reservedSet_mem chunks d).mp hd
    have hfind := initFold_find chunks d [] (by simp [SortedKeys])
    rw [if_pos ⟨c, hc, h1, h2⟩] at hfind
    intro hnil
    rw [initDomainCounts] at hnil
    rw [hnil] at hfind
    simp [mapFind] at hfind

/-- The count map that reaches the free-domain assignment loop: sorted,
nonempty (when the target is positive) and with no FREE key. -/
theorem synth_counts_inv (target : Nat) (chunks : List chunk_info)
    (htarget : 1 ≤ target) :
    SortedKeys (synthesizeDomains target (reservedSet chunks)
      (initDomainCounts chunks)).2.2 ∧
    (synthesizeDomains target (reservedSet chunks)
      (initDomainCounts chunks)).2.2 ≠ [] ∧
    (∀ q ∈ (synthesizeDomains target (reservedSet chunks)
      (initDomainCounts chunks)).2.2, q.1 ≠ FREE_DOMAIN_ID) := by
  by_cases hgt : (reservedSet chunks).length > target
  · simp only [synthesizeDomains, if_pos hgt]
    refine ⟨initDomainCounts_sorted chunks, ?_, initDomainCounts_keys chunks⟩
    refine reservedSet_nonempty_counts chunks ?_
    intro hnil
    rw [hnil] at hgt
    simp at hgt
  · simp only [synthesizeDomains, if_neg hgt]
    refine ⟨makeDomains_sorted _ _ _ _ (initDomainCounts_sorted chunks),
      ?_, ?_⟩
    · by_cases hk : 1 ≤ target - (reservedSet chunks).length
      · exact makeDomains_pos_ne_nil _ hk _ _ _
      · have hlen : (reservedSet chunks).length = target := by omega
        refine makeDomains_preserve_ne_nil _ _ _ _ ?_
        refine reservedSet_nonempty_counts chunks ?_
        intro hnil
        rw [hnil] at hlen
        simp at hlen
        omega
    · intro q hq
      rcases makeDomains_keys _ _ _ _ (le_refl 0) q hq with h2 | h2
      · exact initDomainCounts_keys chunks q h2
      · show ¬ (q.1 = -1)
        omega

theorem assignFreeDomains_vals (cs : List chunk_info) :
    ∀ m : List (Int × Nat), SortedKeys m → m ≠ [] →
      (∀ q ∈ m, q.1 ≠ FREE_DOMAIN_ID) →
      ∀ d ∈ (assignFreeDomains cs m).1, d ≠ FREE_DOMAIN_ID := by
  induction cs with
  | nil => intro m _ _ _ d hd; simp [assignFreeDomains] at hd
  | cons c rest ih =>
    intro m hs hne hkeys d hd
    by_cases hf : c.destination_domain ≠ FREE_DOMAIN_ID
    · simp only [assignFreeDomains, if_pos hf, List.mem_cons] at hd
      rcases hd with h | h
      · rw [h]; exact hf
      · exact ih m hs hne hkeys d h
    · obtain ⟨pm, hpm_eq, hpm_mem, _, _⟩ := argminFirst_spec m hs hne
      have hp : (argminFirst m).getD (FREE_DOMAIN_ID, 0) = pm := by
        rw [hpm_eq]; rfl
      simp only [assignFreeDomains, if_neg hf, hp, List.mem_cons] at hd
      rcases hd with h | h
      · rw [h]; exact hkeys pm hpm_mem
      · refine ih _ (sorted_mapSet _ _ _ hs) (mapSet_ne_nil _ _ _) ?_ d h
        intro q hq
        rcases mem_mapSet q _ _ _ hq with h2 | h2
        · rw [h2]; exact hkeys pm hpm_mem
        · exact hkeys q h2

theorem getD_zip {α β : Type} (l1 : List α) (l2 : List β) (i : Nat)
    (hi1 : i < l1.length) (hi2 : i < l2.length) (d1 : α) (d2 : β) :
    (l1.zip l2).getD i (d1, d2) = (l1.getD i d1, l2.getD i d2) := by
  have hz : i < (l1.zip l2).length := by
    rw [List.length_zip]
    omega
  rw [List.getD_eq_getElem _ _ hz, List.getD_eq_getElem _ _ hi1,
    List.getD_eq_getElem _ _ hi2, List.getElem_zip]

/-- C1, counterexample: two chunks that both arrive pinned to domain 5
but with distinct fixed ranks 0 and 1 keep their ranks, because a domain
with no FREE-rank chunk is never re-assigned, so equal domains end with
unequal ranks. -/
theorem map_chunks_invariant_cex :
    ¬ mapChunksInvariantHolds 2 1
      [⟨10, 0, 5⟩, ⟨10, 1, 5⟩] := by
  intro h
  have h1 := h.2.2 0 (by decide) 1 (by decide) (by decide)
  revert h1
  decide

/-- C1, amended: after map_chunks every chunk has a concrete (non-FREE)
destination rank and destination domain, and two chunks with equal
destination domains get equal destination ranks whenever some chunk of
that domain arrived with a FREE destination rank (a domain whose chunks
all arrived with fixed ranks keeps those ranks unchanged). -/
theorem map_chunks_post_amended (size target : Nat)
    (chunks : List chunk_info) (hsize : 1 ≤ size) (htarget : 1 ≤ target) :
    (map_chunks size target chunks).dest_domain.length = chunks.length ∧
    (map_chunks size target chunks).dest_rank.length = chunks.length ∧
    (∀ d ∈ (map_chunks size target chunks).dest_domain,
      d ≠ FREE_DOMAIN_ID) ∧
    (∀ r ∈ (map_chunks size target chunks).dest_rank,
      r ≠ FREE_RANK_ID) ∧
    (∀ i, i < chunks.length → ∀ j, j < chunks.length →
      (map_chunks size target chunks).dest_domain.getD i FREE_DOMAIN_ID =
        (map_chunks size target chunks).dest_domain.getD j
          FREE_DOMAIN_ID →
      (∃ k, k < chunks.length ∧
        (map_chunks size target chunks).dest_domain.getD k
          FREE_DOMAIN_ID =
        (map_chunks size target chunks).dest_domain.getD i
          FREE_DOMAIN_ID ∧
        (chunks.getD k defaultChunk).destination_rank = FREE_RANK_ID) →
      (map_chunks size target chunks).dest_rank.getD i FREE_RANK_ID =
        (map_chunks size target chunks).dest_rank.getD j FREE_RANK_ID) := by
  obtain ⟨hs_sort, hs_ne, hs_keys⟩ := synth_counts_inv target chunks htarget
  have hdd : (map_chunks size target chunks).dest_domain =
      (assignFreeDomains chunks
        (synthesizeDomains target (reservedSet chunks)
          (initDomainCounts chunks)).2.2).1 := rfl
  have hdr : (map_chunks size target chunks).dest_rank =
      ((rankAssignLoop
          ((sizeToDomain
            (assignFreeDomains chunks
              (synthesizeDomains target (reservedSet chunks)
                (initDomainCounts chunks)).2.2).2
            (domainsToAssign
              (chunks.zip (assignFreeDomains chunks
                (synthesizeDomains target (reservedSet chunks)
                  (initDomainCounts chunks)).2.2).1))).reverse)
          (rankCountsInit size
            (chunks.zip (assignFreeDomains chunks
              (synthesizeDomains target (reservedSet chunks)
                (initDomainCounts chunks)).2.2).1))
          ((chunks.zip (assignFreeDomains chunks
              (synthesizeDomains target (reservedSet chunks)
                (initDomainCounts chunks)).2.2).1).map
            (fun c => (c.2, c.1.destination_rank)))).2.map
        (fun p => p.2)) := rfl
  set m1 := (synthesizeDomains target (reservedSet chunks)
    (initDomainCounts chunks)).2.2 with hm1
  set dd := (assignFreeDomains chunks m1).1 with hdd2
  set cs := chunks.zip dd with hcs
  set prsInit := cs.map (fun c => (c.2, c.1.destination_rank)) with hprs
  set proc := (sizeToDomain (assignFreeDomains chunks m1).2
    (domainsToAssign cs)).reverse with hproc
  set rcInit := rankCountsInit size cs with hrc
  set pairs := (rankAssignLoop proc rcInit prsInit).2 with hpairs
  have hlen_dd : dd.length = chunks.length := assignFreeDomains_length _ _
  have hlen_cs : cs.length = chunks.length := by
    rw [hcs, List.length_zip, hlen_dd]
    simp
  have hlen_prs : prsInit.length = chunks.length := by
    rw [hprs, List.length_map, hlen_cs]
  have hlen_pairs : pairs.length = chunks.length := by
    rw [hpairs, rankAssignLoop_length, hlen_prs]
  have hrc_sort : SortedKeys rcInit := rankCountsInit_sorted size cs
  have hrc_ne : rcInit ≠ [] := rankCountsInit_ne_nil size cs hsize
  have hrc_keys : ∀ q ∈ rcInit, q.1 ≠ FREE_RANK_ID :=
    rankCountsInit_keys size cs
  have hperm : ((sizeToDomain (assignFreeDomains chunks m1).2
      (domainsToAssign cs)).map Prod.snd).Perm (domainsToAssign cs) := by
    refine ((sizeToDomain_perm _ _).map Prod.snd).trans ?_
    rw [List.map_map]
    have : (Prod.snd ∘ fun d =>
        (mapGetD (assignFreeDomains chunks m1).2 d 0, d)) = id := by
      funext d
      rfl
    rw [this, List.map_id]
  have hproc_nodup : (proc.map Prod.snd).Nodup := by
    rw [hproc, List.map_reverse, List.nodup_reverse]
    exact hperm.nodup_iff.mpr
      (nodup_of_sorted _ (domainsToAssign_sorted cs))
  have hproc_mem : ∀ d : Int,
      d ∈ proc.map Prod.snd ↔ d ∈ domainsToAssign cs := by
    intro d
    rw [hproc, List.map_reverse, List.mem_reverse]
    exact hperm.mem_iff
  have hprs_getD : ∀ i, i < chunks.length →
      prsInit.getD i defaultPair =
        (dd.getD i FREE_DOMAIN_ID,
          (chunks.getD i defaultChunk).destination_rank) := by
    intro i hi
    rw [hprs, getD_map_general _ _ _ (by omega)
      _ (defaultChunk, FREE_DOMAIN_ID)]
    rw [hcs, getD_zip _ _ _ hi (by omega)]
  have hcs_getD : ∀ i, i < chunks.length →
      cs.getD i (defaultChunk, FREE_DOMAIN_ID) ∈ cs := by
    intro i hi
    rw [List.getD_eq_getElem _ _ (by omega)]
    exact List.getElem_mem _
  have hO2 : ∀ d ∈ dd, d ≠ FREE_DOMAIN_ID :=
    assignFreeDomains_vals chunks m1 hs_sort hs_ne hs_keys
  have hranks_getD : ∀ i, i < chunks.length →
      (map_chunks size target chunks).dest_rank.getD i FREE_RANK_ID =
        (pairs.getD i defaultPair).2 := by
    intro i hi
    rw [hdr]
    exact getD_map_general _ _ _ (by omega) _ defaultPair
  refine ⟨by rw [hdd]; exact hlen_dd,
    by rw [hdr]; simp [hlen_pairs], ?_, ?_, ?_⟩
  · rw [hdd]
    exact hO2
  · rw [hdr]
    intro r hr
    obtain ⟨i, hilen, hieq⟩ := List.mem_iff_getElem.mp hr
    have hi : i < chunks.length := by
      rw [List.length_map, hlen_pairs] at hilen
      exact hilen
    have hr_eq : r = (pairs.getD i defaultPair).2 := by
      rw [← hieq, ← List.getD_eq_getElem _ FREE_RANK_ID hilen]
      exact getD_map_general _ _ _ (by omega) _ defaultPair
    by_cases hmem : (prsInit.getD i defaultPair).1 ∈ proc.map Prod.snd
    · have hb := rankAssignLoop_broadcast proc rcInit prsInit
        hrc_sort hrc_ne hrc_keys hproc_nodup i i (by omega) (by omega)
        rfl hmem
      rw [hr_eq, hpairs]
      exact hb.2
    · have hu := rankAssignLoop_untouched proc rcInit prsInit i
        (by omega) hmem
      rw [hr_eq, hpairs, hu, hprs_getD i hi]
      intro hcon
      refine hmem ?_
      rw [hprs_getD i hi]
      refine (hproc_mem _).mpr ?_
      refine (domainsToAssign_mem cs _).mpr ?_
      refine ⟨cs.getD i (defaultChunk, FREE_DOMAIN_ID), hcs_getD i hi,
        ?_, ?_⟩
      · rw [hcs, getD_zip _ _ _ hi (by omega)]
        exact hcon
      · rw [hcs, getD_zip _ _ _ hi (by omega)]
  · intro i hi j hj heq hex
    obtain ⟨k, hk, hkeq, hkfree⟩ := hex
    rw [hdd] at heq hkeq
    have hD : dd.getD k FREE_DOMAIN_ID = dd.getD i FREE_DOMAIN_ID := hkeq
    have hmemD : (prsInit.getD i defaultPair).1 ∈ proc.map Prod.snd := by
      rw [hprs_getD i hi]
      refine (hproc_mem _).mpr ?_
      refine (domainsToAssign_mem cs _).mpr ?_
      refine ⟨cs.getD k (defaultChunk, FREE_DOMAIN_ID), hcs_getD k hk,
        ?_, ?_⟩
      · rw [hcs, getD_zip _ _ _ hk (by omega)]
        exact hkfree
      · rw [hcs, getD_zip _ _ _ hk (by omega)]
        exact hD
    have hb := rankAssignLoop_broadcast proc rcInit prsInit
      hrc_sort hrc_ne hrc_keys hproc_nodup i j (by omega) (by omega)
      (by rw [hprs_getD i hi, hprs_getD j hj]; exact heq) hmemD
    rw [hranks_getD i hi, hranks_getD j hj, hpairs]
    exact congrArg Prod.snd hb.1

theorem take_succ_getD_pair (l : List (Nat × Int)) (i : Nat)
    (hi : i < l.length) (d : Nat × Int) :
    l.take (i + 1) = l.take i ++ [l.getD i d] := by
  have h1 : l.getD i d = l[i] := List.getD_eq_getElem _ _ hi
  rw [List.take_succ, List.getElem?_eq_getElem hi, h1]
  rfl

/-- C3. The rank-assignment phase of map_chunks processes exactly the
destination domains that still have a chunk with FREE destination rank,
in non-increasing order of the domain total element count (the reversed
multimap); each processed entry carries the domain total, and each step
picks the rank whose current element count is minimal (lowest rank on
ties), writes that rank into every chunk pair sharing the domain id and
adds the domain total to the chosen rank count. -/
theorem map_chunks_rank_assignment (size : Nat)
    (domCounts : List (Int × Nat)) (cs : List (chunk_info × Int))
    (hsize : 1 ≤ size) :
    (∀ d : Int, d ∈ domainsToAssign cs ↔ ∃ c ∈ cs,
      c.1.destination_rank = FREE_RANK_ID ∧ c.2 = d) ∧
    List.Pairwise (fun a b => b.1 ≤ a.1)
      ((sizeToDomain domCounts (domainsToAssign cs)).reverse) ∧
    (((sizeToDomain domCounts (domainsToAssign cs)).reverse).map
      Prod.snd).Perm (domainsToAssign cs) ∧
    (∀ p ∈ (sizeToDomain domCounts (domainsToAssign cs)).reverse,
      p.1 = mapGetD domCounts p.2 0) ∧
    (∀ k, k < (sizeToDomain domCounts (domainsToAssign cs)).reverse.length →
      ∃ rk : Int, ∃ rv : Nat,
        mapFind (rankAssignLoop
          (((sizeToDomain domCounts (domainsToAssign cs)).reverse).take k)
          (rankCountsInit size cs)
          (cs.map (fun c => (c.2, c.1.destination_rank)))).1 rk =
          some rv ∧
        (∀ q ∈ (rankAssignLoop
          (((sizeToDomain domCounts (domainsToAssign cs)).reverse).take k)
          (rankCountsInit size cs)
          (cs.map (fun c => (c.2, c.1.destination_rank)))).1,
          rv ≤ q.2) ∧
        (∀ q ∈ (rankAssignLoop
          (((sizeToDomain domCounts (domainsToAssign cs)).reverse).take k)
          (rankCountsInit size cs)
          (cs.map (fun c => (c.2, c.1.destination_rank)))).1,
          q.2 = rv → rk ≤ q.1) ∧
        rankAssignLoop
          (((sizeToDomain domCounts (domainsToAssign cs)).reverse).take
            (k + 1))
          (rankCountsInit size cs)
          (cs.map (fun c => (c.2, c.1.destination_rank))) =
        (mapSet rk (rv +
            (((sizeToDomain domCounts
              (domainsToAssign cs)).reverse).getD k (0, FREE_DOMAIN_ID)).1)
          (rankAssignLoop
            (((sizeToDomain domCounts
              (domainsToAssign cs)).reverse).take k)
            (rankCountsInit size cs)
            (cs.map (fun c => (c.2, c.1.destination_rank)))).1,
         (rankAssignLoop
            (((sizeToDomain domCounts
              (domainsToAssign cs)).reverse).take k)
            (rankCountsInit size cs)
            (cs.map (fun c => (c.2, c.1.destination_rank)))).2.map
          (fun q => if q.1 =
              (((sizeToDomain domCounts
                (domainsToAssign cs)).reverse).getD k
                  (0, FREE_DOMAIN_ID)).2
            then (q.1, rk) else q))) := by
  set proc := (sizeToDomain domCounts (domainsToAssign cs)).reverse
    with hproc
  set rcInit := rankCountsInit size cs with hrc
  set prsInit := cs.map (fun c => (c.2, c.1.destination_rank)) with hprs
  refine ⟨fun d => domainsToAssign_mem cs d, ?_, ?_, ?_, ?_⟩
  · rw [hproc, List.pairwise_reverse]
    exact sizeToDomain_sorted domCounts (domainsToAssign cs)
  · rw [hproc, List.map_reverse]
    refine (List.reverse_perm _).trans ?_
    refine ((sizeToDomain_perm _ _).map Prod.snd).trans ?_
    rw [List.map_map]
    have h1 : (Prod.snd ∘ fun d =>
        (mapGetD domCounts d 0, d)) = id := by
      funext d
      rfl
    rw [h1, List.map_id]
  · intro p hp
    rw [hproc, List.mem_reverse] at hp
    have := (sizeToDomain_perm domCounts (domainsToAssign cs)).mem_iff.mp hp
    obtain ⟨d, _, hde⟩ := List.mem_map.mp this
    rw [← hde]
  · intro k hk
    obtain ⟨hsort_k, hne_k⟩ := rankAssignLoop_rc_inv (proc.take k)
      rcInit prsInit (rankCountsInit_sorted size cs)
      (rankCountsInit_ne_nil size cs hsize)
    obtain ⟨pm, hpm_eq, hpm_mem, hpm_min, hpm_tie⟩ :=
      argminFirst_spec _ hsort_k hne_k
    refine ⟨pm.1, pm.2, mapFind_of_mem _ _ _ hsort_k hpm_mem,
      hpm_min, hpm_tie, ?_⟩
    rw [take_succ_getD_pair proc k hk (0, FREE_DOMAIN_ID)]
    rw [rankAssignLoop_append]
    cases hpk : proc.getD k (0, FREE_DOMAIN_ID) with
    | mk cnt domid =>
      simp only [rankAssignLoop]
      rw [hpm_eq]
      rfl

/-! ## communicate_chunks index bookkeeping (claims C6, C7, C10) -/

theorem take_succ_getD_nat (l : List Nat) (i : Nat) (hi : i < l.length) :
    l.take (i + 1) = l.take i ++ [l.getD i 0] := by
  have h1 : l.getD i 0 = l[i] := List.getD_eq_getElem _ _ hi
  rw [List.take_succ, List.getElem?_eq_getElem hi, h1]
  rfl

theorem sum_range_getD (n : List Nat) :
    ∀ r : Nat, r ≤ n.length →
    ((List.range r).map (fun i => n.getD i 0)).sum = (n.take r).sum := by
  intro r
  induction r with
  | zero => intro _; simp
  | succ r2 ih =>
    intro hr
    rw [List.range_succ, List.map_append, List.sum_append,
      take_succ_getD_nat n r2 (by omega), List.sum_append,
      ih (by omega)]
    simp

theorem sum_take_mono (l : List Nat) (a b : Nat) (hab : a ≤ b) :
    (l.take a).sum ≤ (l.take b).sum := by
  have h1 : (l.take b).take a = l.take a := by
    rw [List.take_take]
    congr 1
    omega
  have h2 := List.sum_take_add_sum_drop (l.take b) a
  rw [h1] at h2
  omega

theorem offsetsOf_getD (n : List Nat) (r : Nat) (hr : r < n.length) :
    (offsetsOf n).getD r 0 = (n.take r).sum := by
  rw [offsetsOf, List.getD_eq_getElem _ _ (by simpa using hr),
    List.getElem_map, List.getElem_range]

theorem ownerOf_spec (n : List Nat) :
    ∀ i : Nat, i < n.sum →
    ownerOf n i < n.length ∧
    (n.take (ownerOf n i)).sum ≤ i ∧
    i < (n.take (ownerOf n i)).sum + n.getD (ownerOf n i) 0 := by
  induction n with
  | nil =>
    intro i hi
    simp at hi
  | cons c rest ih =>
    intro i hi
    by_cases h : i < c
    · simp only [ownerOf, if_pos h]
      refine ⟨by simp, by simp, ?_⟩
      simpa using h
    · simp only [ownerOf, if_neg h]
      have hrest : i - c < rest.sum := by
        simp only [List.sum_cons] at hi
        omega
      obtain ⟨h1, h2, h3⟩ := ih (i - c) hrest
      have hcomm : 1 + ownerOf rest (i - c) = ownerOf rest (i - c) + 1 := by
        omega
      rw [hcomm]
      refine ⟨?_, ?_, ?_⟩
      · simp only [List.length_cons]
        omega
      · simp only [List.take_succ_cons, List.sum_cons]
        omega
      · simp only [List.take_succ_cons, List.sum_cons,
          List.getD_cons_succ]
        omega

theorem ownerOf_eq (n : List Nat) :
    ∀ (r i : Nat), r < n.length →
    (n.take r).sum ≤ i → i < (n.take r).sum + n.getD r 0 →
    ownerOf n i = r := by
  induction n with
  | nil =>
    intro r i hr _ _
    simp at hr
  | cons c rest ih =>
    intro r i hr h1 h2
    cases r with
    | zero =>
      simp only [List.take_zero, List.sum_nil, List.getD_cons_zero] at h2
      have hlt : i < c := by omega
      simp [ownerOf, hlt]
    | succ r2 =>
      simp only [List.take_succ_cons, List.sum_cons,
        List.getD_cons_succ] at h1 h2
      have hnotlt : ¬ i < c := by omega
      simp only [ownerOf, if_neg hnotlt]
      have := ih r2 (i - c) (by simpa using hr) (by omega) (by omega)
      omega

theorem flatten_blocks_getD :
    ∀ (k : Nat) (f : Nat → Nat) (v : Nat → Int) (r j : Nat),
      r < k → j < f r →
      (((List.range k).map (fun i => List.replicate (f i) (v i))).flatten).getD
        (((List.range r).map f).sum + j) (-1) = v r := by
  intro k
  induction k with
  | zero =>
    intro f v r j hr _
    omega
  | succ k2 ih =>
    intro f v r j hr hj
    rw [List.range_succ_eq_map, List.map_cons, List.flatten_cons,
      List.map_map]
    cases r with
    | zero =>
      simp only [List.range_zero, List.map_nil, List.sum_nil, Nat.zero_add]
      rw [List.getD_append _ _ _ _ (by simpa using hj)]
      rw [List.getD_eq_getElem _ _ (by simpa using hj),
        List.getElem_replicate]
    | succ r2 =>
      have hsum : ((List.range (r2 + 1)).map f).sum =
          f 0 + ((List.range r2).map (fun i => f (i + 1))).sum := by
        rw [List.range_succ_eq_map, List.map_cons, List.sum_cons,
          List.map_map]
        congr 1
      rw [hsum]
      rw [List.getD_append_right _ _ _ _ (by simp; omega)]
      have harg : f 0 + ((List.range r2).map (fun i => f (i + 1))).sum +
          j - (List.replicate (f 0) (v 0)).length =
          ((List.range r2).map (fun i => f (i + 1))).sum + j := by
        simp
        omega
      rw [harg]
      have hcomp : ((fun i => List.replicate (f i) (v i)) ∘ Nat.succ) =
          (fun i => List.replicate (f (i + 1)) (v (i + 1))) := by
        funext i
        rfl
      rw [hcomp]
      exact ih (fun i => f (i + 1)) (fun i => v (i + 1)) r2 j
        (by omega) hj

theorem srcRankOf_getD (n : List Nat) (i : Nat) (hn : 1 ≤ n.length)
    (hi : i < n.sum) :
    (srcRankOf n n.sum).getD i (-1) = ((ownerOf n i : Nat) : Int) := by
  obtain ⟨ho1, ho2, ho3⟩ := ownerOf_spec n i hi
  have hfl : (((List.range (n.length - 1)).map
      (fun r => List.replicate (n.getD r 0) ((r : Int)))).flatten).length =
      (n.take (n.length - 1)).sum := by
    rw [List.length_flatten, List.map_map]
    have h1 : (List.length ∘ fun r =>
        List.replicate (n.getD r 0) ((r : Int))) =
        fun r => n.getD r 0 := by
      funext r
      simp
    rw [h1, sum_range_getD n (n.length - 1) (by omega)]
  rw [srcRankOf]
  by_cases hcase : ownerOf n i < n.length - 1
  · have hlt : i < (n.take (n.length - 1)).sum := by
      have h2 : (n.take (ownerOf n i + 1)).sum ≤
          (n.take (n.length - 1)).sum :=
        sum_take_mono n _ _ (by omega)
      have h3 : (n.take (ownerOf n i + 1)).sum =
          (n.take (ownerOf n i)).sum + n.getD (ownerOf n i) 0 := by
        rw [take_succ_getD_nat n _ (by omega), List.sum_append]
        simp
      omega
    rw [List.getD_append _ _ _ _ (by rw [hfl]; exact hlt)]
    have hj : i = ((List.range (ownerOf n i)).map
        (fun r => n.getD r 0)).sum + (i - (n.take (ownerOf n i)).sum) := by
      rw [sum_range_getD n _ (by omega)]
      omega
    have hb := flatten_blocks_getD (n.length - 1) (fun r => n.getD r 0)
      (fun r => (r : Int)) (ownerOf n i)
      (i - (n.take (ownerOf n i)).sum) hcase
      (by
        show i - (n.take (ownerOf n i)).sum < n.getD (ownerOf n i) 0
        omega)
    rw [← hj] at hb
    exact hb
  · have howner : ownerOf n i = n.length - 1 := by omega
    have hge : (n.take (n.length - 1)).sum ≤ i := by
      rw [← howner]
      exact ho2
    rw [List.getD_append_right _ _ _ _ (by rw [hfl]; exact hge)]
    have hidx : i - (((List.range (n.length - 1)).map
        (fun r => List.replicate (n.getD r 0) ((r : Int)))).flatten).length <
        n.sum - (((List.range (n.length - 1)).map
        (fun r => List.replicate (n.getD r 0) ((r : Int)))).flatten).length := by
      rw [hfl]
      omega
    rw [List.getD_eq_getElem _ _ (by simpa using hidx),
      List.getElem_replicate, howner]
    have : ((n.length : Int)) - 1 = (((n.length - 1 : Nat)) : Int) := by
      omega
    rw [this]

theorem countP_filterMap {α β : Type} [DecidableEq β] (f : α → Option β)
    (b : β) :
    ∀ l : List α, (l.filterMap f).countP (fun x => decide (x = b)) =
      l.countP (fun a => decide (f a = some b)) := by
  intro l
  induction l with
  | nil => rfl
  | cons a rest ih =>
    rw [List.filterMap_cons, List.countP_cons]
    cases hfa : f a with
    | none =>
      simp only [hfa]
      rw [ih]
      simp
    | some c =>
      rw [List.countP_cons, ih]
      by_cases hc : c = b
      · simp [hfa, hc]
      · simp [hfa, hc]

theorem count_filterMap {α β : Type} [DecidableEq β] (f : α → Option β)
    (b : β) :
    ∀ l : List α, (l.filterMap f).count b =
      l.countP (fun a => decide (f a = some b)) := by
  intro l
  induction l with
  | nil => rfl
  | cons a rest ih =>
    rw [List.filterMap_cons, List.countP_cons]
    cases hfa : f a with
    | none =>
      simp only [hfa]
      rw [ih]
      simp
    | some c =>
      rw [List.count_cons, ih]
      by_cases hc : c = b
      · simp [hfa, hc]
      · simp [hfa, hc]

theorem countP_range_unique (m i0 : Nat) (p : Nat → Bool)
    (h : ∀ i, i < m → (p i = true ↔ i = i0)) (hi0 : i0 < m) :
    (List.range m).countP p = 1 := by
  have h1 : (List.range m).countP p =
      (List.range m).countP (fun i => i == i0) := by
    refine List.countP_congr ?_
    intro i hi
    rw [List.mem_range] at hi
    rw [h i hi]
    simp
  rw [h1]
  exact List.count_eq_one_of_mem (List.nodup_range m)
    (List.mem_range.mpr hi0)

theorem filterMap_map_proj {α β γ : Type} (f : α → Option β)
    (proj : β → γ) (g : α → Option γ)
    (h : ∀ a, (f a).map proj = g a) :
    ∀ l : List α, (l.filterMap f).map proj = l.filterMap g := by
  intro l
  induction l with
  | nil => rfl
  | cons a rest ih =>
    cases hfa : f a with
    | none =>
      have hga : g a = none := by
        rw [← h a, hfa]
        rfl
      rw [List.filterMap_cons_none hfa, List.filterMap_cons_none hga]
      exact ih
    | some c =>
      have hga : g a = some (proj c) := by
        rw [← h a, hfa]
        rfl
      rw [List.filterMap_cons_some hfa,
        List.filterMap_cons_some hga, List.map_cons, ih]

theorem filterMap_ite_eq_filter {α : Type} (p : α → Prop)
    [DecidablePred p] :
    ∀ l : List α,
      l.filterMap (fun a => if p a then some a else none) =
        l.filter (fun a => decide (p a)) := by
  intro l
  induction l with
  | nil => rfl
  | cons a rest ih =>
    by_cases ha : p a
    · simp [List.filterMap_cons, List.filter_cons, ha, ih]
    · simp [List.filterMap_cons, List.filter_cons, ha, ih]

/-- C6. On every rank the assembled chunk list holds exactly the global
chunks destined to that rank, in ascending global index order, each
tagged with its destination domain; every chunk whose destination rank
differs from its owner is posted as exactly one send to that destination
with tag PARTITION_TAG_BASE plus the global index; and the destination
posts exactly one matching receive carrying the same tag and naming the
origin rank as source. -/
theorem communicate_chunks_matching (n : List Nat)
    (dest_rank dest_domain : List Int)
    (hn : 1 ≤ n.length)
    (hlen : dest_rank.length = n.sum)
    (hvalid : ∀ d ∈ dest_rank, d < (n.length : Int)) :
    (∀ r : Nat,
      (assembleFor n dest_rank dest_domain r).map AsmChunk.gidx =
        (List.range dest_rank.length).filter
          (fun i => dest_rank.getD i FREE_RANK_ID = (r : Int))) ∧
    (∀ r : Nat, ∀ e ∈ assembleFor n dest_rank dest_domain r,
      e.dom = dest_domain.getD e.gidx FREE_DOMAIN_ID) ∧
    (∀ g, g < n.sum →
      dest_rank.getD g FREE_RANK_ID ≠ ((ownerOf n g : Nat) : Int) →
      (sendsFor n dest_rank (ownerOf n g)).countP
        (fun e => decide (e =
          (dest_rank.getD g FREE_RANK_ID, PARTITION_TAG_BASE + g))) = 1) ∧
    (∀ g, g < n.sum → ∀ rd : Nat,
      ((rd : Nat) : Int) = dest_rank.getD g FREE_RANK_ID →
      rd ≠ ownerOf n g →
      (assembleFor n dest_rank dest_domain rd).count
        (AsmChunk.received g ((ownerOf n g : Nat) : Int)
          (PARTITION_TAG_BASE + g)
          (dest_domain.getD g FREE_DOMAIN_ID)) = 1) := by
  refine ⟨?_, ?_, ?_, ?_⟩
  · intro r
    rw [assembleFor]
    rw [filterMap_map_proj _ AsmChunk.gidx
      (fun i => if dest_rank.getD i FREE_RANK_ID = (r : Int) then some i
        else none) ?_]
    · exact filterMap_ite_eq_filter _ _
    · intro i
      by_cases h1 : dest_rank.getD i FREE_RANK_ID = (r : Int)
      · by_cases h2 : (offsetsOf n).getD r 0 ≤ i ∧
            i < (offsetsOf n).getD r 0 + n.getD r 0
        · simp only [List.getD_eq_getElem?_getD] at h1 h2 ⊢
          simp [h1, h2, AsmChunk.gidx]
        · simp only [List.getD_eq_getElem?_getD] at h1 h2 ⊢
          simp [h1, h2, AsmChunk.gidx]
      · simp only [List.getD_eq_getElem?_getD] at h1 ⊢
        simp [h1]
  · intro r e he
    rw [assembleFor] at he
    obtain ⟨i, _, hfe⟩ := List.mem_filterMap.mp he
    by_cases h1 : dest_rank.getD i FREE_RANK_ID = (r : Int)
    · rw [if_pos h1] at hfe
      by_cases h2 : (offsetsOf n).getD r 0 ≤ i ∧
          i < (offsetsOf n).getD r 0 + n.getD r 0
      · rw [if_pos h2] at hfe
        injection hfe with hfe2
        rw [← hfe2]
        rfl
      · rw [if_neg h2] at hfe
        injection hfe with hfe2
        rw [← hfe2]
        rfl
    · rw [if_neg h1] at hfe
      exact absurd hfe (by simp)
  · intro g hg hne
    obtain ⟨ho1, ho2, ho3⟩ := ownerOf_spec n g hg
    rw [sendsFor, countP_filterMap]
    refine countP_range_unique _ (g - (n.take (ownerOf n g)).sum) _ ?_
      (by omega)
    intro i hi
    rw [offsetsOf_getD n _ ho1]
    constructor
    · intro hsome
      rw [decide_eq_true_iff] at hsome
      by_cases hcond : dest_rank.getD ((n.take (ownerOf n g)).sum + i)
          FREE_RANK_ID ≠ ((ownerOf n g : Nat) : Int)
      · rw [if_pos hcond] at hsome
        injection hsome with hsome2
        have := congrArg Prod.snd hsome2
        simp only at this
        omega
      · rw [if_neg hcond] at hsome
        exact absurd hsome (by simp)
    · intro hieq
      subst hieq
      rw [decide_eq_true_iff]
      have hgi : (n.take (ownerOf n g)).sum +
          (g - (n.take (ownerOf n g)).sum) = g := by omega
      rw [hgi, if_pos hne]
  · intro g hg rd hrd hrdne
    obtain ⟨ho1, ho2, ho3⟩ := ownerOf_spec n g hg
    have hrd_lt : rd < n.length := by
      have hmem : dest_rank.getD g FREE_RANK_ID ∈ dest_rank := by
        rw [List.getD_eq_getElem _ _ (by omega)]
        exact List.getElem_mem _
      have := hvalid _ hmem
      rw [← hrd] at this
      exact_mod_cast this
    rw [assembleFor, count_filterMap]
    refine countP_range_unique _ g _ ?_ (by omega)
    intro i hi
    constructor
    · intro hsome
      rw [decide_eq_true_iff] at hsome
      by_cases h1 : dest_rank.getD i FREE_RANK_ID = ((rd : Nat) : Int)
      · rw [if_pos h1] at hsome
        by_cases h2 : (offsetsOf n).getD rd 0 ≤ i ∧
            i < (offsetsOf n).getD rd 0 + n.getD rd 0
        · rw [if_pos h2] at hsome
          exact absurd hsome (by simp)
        · rw [if_neg h2] at hsome
          injection hsome with hsome2
          injection hsome2 with h3 h4 h5 h6
      · rw [if_neg h1] at hsome
        exact absurd hsome (by simp)
    · intro hieq
      rw [hieq]
      rw [decide_eq_true_iff]
      rw [if_pos hrd.symm]
      have hnotrange : ¬ ((offsetsOf n).getD rd 0 ≤ g ∧
          g < (offsetsOf n).getD rd 0 + n.getD rd 0) := by
        rw [offsetsOf_getD n _ hrd_lt]
        intro ⟨ha, hb⟩
        exact hrdne (ownerOf_eq n rd g hrd_lt ha hb).symm
      rw [if_neg hnotrange]
      congr 1
      rw [hlen]
      rw [srcRankOf_getD n g hn hg]

/-! ## Helper lemmas: the node tree -/

theorem find?_map_upd (cs : List (String × CNode)) (nm : String) (v : CNode)
    (h : ∃ c ∈ cs, c.1 = nm) :
    (cs.map (fun c => if c.1 = nm then (nm, v) else c)).find?
      (fun c => c.1 = nm) = some (nm, v) := by
  induction cs with
  | nil =>
    obtain ⟨c, hc, _⟩ := h
    exact absurd hc (List.not_mem_nil c)
  | cons c cs ih =>
    rw [List.map_cons]
    by_cases hc : c.1 = nm
    · rw [if_pos hc, List.find?_cons_of_pos _ (by simp)]
    · rw [if_neg hc, List.find?_cons_of_neg _ (by simp [hc])]
      refine ih ?_
      obtain ⟨x, hx, hxn⟩ := h
      rcases List.mem_cons.mp hx with h3 | h3
      · subst h3; exact absurd hxn hc
      · exact ⟨x, h3, hxn⟩

theorem find?_map_upd_ne (cs : List (String × CNode)) (nm nm2 : String)
    (v : CNode) (hne : nm2 ≠ nm) :
    (cs.map (fun c => if c.1 = nm then (nm, v) else c)).find?
      (fun c => c.1 = nm2) = cs.find? (fun c => c.1 = nm2) := by
  induction cs with
  | nil => rfl
  | cons c cs ih =>
    rw [List.map_cons]
    by_cases hc : c.1 = nm
    · rw [if_pos hc,
        List.find?_cons_of_neg _ (by simp [Ne.symm hne]),
        List.find?_cons_of_neg _ (by simp [hc, Ne.symm hne])]
      exact ih
    · rw [if_neg hc]
      by_cases hc2 : c.1 = nm2
      · rw [List.find?_cons_of_pos _ (by simp [hc2]),
          List.find?_cons_of_pos _ (by simp [hc2])]
      · rw [List.find?_cons_of_neg _ (by simp [hc2]),
          List.find?_cons_of_neg _ (by simp [hc2])]
        exact ih

theorem find?_filter_self (cs : List (String × CNode)) (s : String) :
    (cs.filter (fun c => c.1 ≠ s)).find? (fun c => c.1 = s) = none := by
  rw [List.find?_eq_none]
  intro x hx
  have h2 := (List.mem_filter.mp hx).2
  simp only [decide_not, Bool.not_eq_eq_eq_not, Bool.not_true,
    decide_eq_false_iff_not] at h2
  simp [h2]

theorem find?_filter_ne (cs : List (String × CNode)) (s nm : String)
    (hnm : nm ≠ s) :
    (cs.filter (fun c => c.1 ≠ s)).find? (fun c => c.1 = nm) =
      cs.find? (fun c => c.1 = nm) := by
  induction cs with
  | nil => rfl
  | cons c cs ih =>
    rw [List.filter_cons]
    by_cases hc : c.1 = s
    · rw [if_neg (by simp [hc]), ih,
        List.find?_cons_of_neg _ (by simp [hc, Ne.symm hnm])]
    · rw [if_pos (by simp [hc])]
      by_cases hc2 : c.1 = nm
      · rw [List.find?_cons_of_pos _ (by simp [hc2]),
          List.find?_cons_of_pos _ (by simp [hc2])]
      · rw [List.find?_cons_of_neg _ (by simp [hc2]),
          List.find?_cons_of_neg _ (by simp [hc2])]
        exact ih

theorem getChild_setChild_self (m : CNode) (nm : String) (v : CNode) :
    getChild (setChild m nm v) nm = some v := by
  cases m with
  | intLeaf k =>
    show (List.find? (fun c => c.1 = nm) [(nm, v)]).map (fun c => c.2) =
      some v
    rw [List.find?_cons_of_pos _ (by simp)]
    rfl
  | obj cs =>
    by_cases h : cs.any (fun c => c.1 = nm) = true
    · have hex : ∃ c ∈ cs, c.1 = nm := by
        obtain ⟨c, hc, hcn⟩ := List.any_eq_true.mp h
        exact ⟨c, hc, of_decide_eq_true hcn⟩
      rw [setChild, if_pos h]
      show (List.find? (fun c => c.1 = nm)
        (cs.map (fun c => if c.1 = nm then (nm, v) else c))).map
          (fun c => c.2) = some v
      rw [find?_map_upd cs nm v hex]
      rfl
    · rw [setChild, if_neg h]
      have h1 : cs.find? (fun c => c.1 = nm) = none := by
        rw [List.find?_eq_none]
        intro x hx
        simp only [decide_eq_true_eq]
        intro hxn
        exact h (List.any_eq_true.mpr ⟨x, hx, decide_eq_true hxn⟩)
      show (List.find? (fun c => c.1 = nm) (cs ++ [(nm, v)])).map
        (fun c => c.2) = some v
      rw [List.find?_append, h1, Option.none_or,
        List.find?_cons_of_pos _ (by simp)]
      rfl

theorem getChild_setChild_ne (m : CNode) (nm nm2 : String) (v : CNode)
    (hne : nm2 ≠ nm) :
    getChild (setChild m nm v) nm2 = getChild m nm2 := by
  cases m with
  | intLeaf k =>
    show (List.find? (fun c => c.1 = nm2) [(nm, v)]).map (fun c => c.2) =
      none
    rw [List.find?_cons_of_neg _ (by simp [Ne.symm hne])]
    rfl
  | obj cs =>
    by_cases h : cs.any (fun c => c.1 = nm) = true
    · rw [setChild, if_pos h]
      show (List.find? (fun c => c.1 = nm2)
        (cs.map (fun c => if c.1 = nm then (nm, v) else c))).map
          (fun c => c.2) =
        (List.find? (fun c => c.1 = nm2) cs).map (fun c => c.2)
      rw [find?_map_upd_ne cs nm nm2 v hne]
    · rw [setChild, if_neg h]
      show (List.find? (fun c => c.1 = nm2) (cs ++ [(nm, v)])).map
        (fun c => c.2) =
        (List.find? (fun c => c.1 = nm2) cs).map (fun c => c.2)
      rw [List.find?_append,
        List.find?_cons_of_neg _ (by simp [Ne.symm hne]),
        List.find?_nil, Option.or_none]

theorem getPath2_setPath2_self (m : CNode) (a b : String) (v : CNode) :
    getPath2 (setPath2 m a b v) a b = some v := by
  rw [setPath2, getPath2, getChild_setChild_self]
  exact getChild_setChild_self _ b v

theorem wrapChunk_state (mesh : CNode) (dd : Int) :
    getChild (wrapChunk mesh dd) "state" =
      some (CNode.obj (stChildren mesh dd)) := by
  cases mesh with
  | intLeaf k => rfl
  | obj cs =>
    show (List.find? (fun c => c.1 = "state")
      (cs.filter (fun c => c.1 ≠ "state") ++
        [("state", CNode.obj (stChildren (CNode.obj cs) dd))])).map
        (fun c => c.2) = some (CNode.obj (stChildren (CNode.obj cs) dd))
    rw [List.find?_append, find?_filter_self, Option.none_or,
      List.find?_cons_of_pos _ (by simp)]
    rfl

theorem stChildren_domain_id (mesh : CNode) (dd : Int) :
    getChild (CNode.obj (stChildren mesh dd)) "domain_id" =
      some (CNode.intLeaf dd) := by
  cases hc : getPath2 mesh "state" "cycle" <;>
    cases ht : getPath2 mesh "state" "time" <;>
      (simp only [stChildren]; rw [hc, ht]; rfl)

theorem stChildren_cycle (mesh : CNode) (dd : Int) :
    getChild (CNode.obj (stChildren mesh dd)) "cycle" =
      getPath2 mesh "state" "cycle" := by
  cases hc : getPath2 mesh "state" "cycle" <;>
    cases ht : getPath2 mesh "state" "time" <;>
      (simp only [stChildren]; rw [hc, ht]; rfl)

theorem stChildren_time (mesh : CNode) (dd : Int) :
    getChild (CNode.obj (stChildren mesh dd)) "time" =
      getPath2 mesh "state" "time" := by
  cases hc : getPath2 mesh "state" "cycle" <;>
    cases ht : getPath2 mesh "state" "time" <;>
      (simp only [stChildren]; rw [hc, ht]; rfl)

theorem wrapChunk_domain_id (mesh : CNode) (dd : Int) :
    getPath2 (wrapChunk mesh dd) "state" "domain_id" =
      some (CNode.intLeaf dd) := by
  rw [getPath2, wrapChunk_state]
  exact stChildren_domain_id mesh dd

theorem wrapChunk_cycle (mesh : CNode) (dd : Int) :
    getPath2 (wrapChunk mesh dd) "state" "cycle" =
      getPath2 mesh "state" "cycle" := by
  rw [getPath2, wrapChunk_state]
  exact stChildren_cycle mesh dd

theorem wrapChunk_time (mesh : CNode) (dd : Int) :
    getPath2 (wrapChunk mesh dd) "state" "time" =
      getPath2 mesh "state" "time" := by
  rw [getPath2, wrapChunk_state]
  exact stChildren_time mesh dd

theorem wrapChunk_nonstate (mesh : CNode) (dd : Int) (nm : String)
    (hnm : nm ≠ "state") :
    getChild (wrapChunk mesh dd) nm = getChild mesh nm := by
  cases mesh with
  | intLeaf k =>
    show (List.find? (fun c => c.1 = nm)
      [("state", CNode.obj (stChildren (CNode.intLeaf k) dd))]).map
        (fun c => c.2) = none
    rw [List.find?_cons_of_neg _ (by simp [Ne.symm hnm])]
    rfl
  | obj cs =>
    show (List.find? (fun c => c.1 = nm)
      (cs.filter (fun c => c.1 ≠ "state") ++
        [("state", CNode.obj (stChildren (CNode.obj cs) dd))])).map
        (fun c => c.2) =
      (List.find? (fun c => c.1 = nm) cs).map (fun c => c.2)
    rw [List.find?_append, find?_filter_ne cs "state" nm hnm,
      List.find?_cons_of_neg _ (by simp [Ne.symm hnm]),
      List.find?_nil, Option.or_none]

/-! ## The frame and renumbering claim (C7) and the ownership claim
(C10) -/

/-- C7. Every entry of chunks_to_assemble carries state/domain_id equal
to its recorded destination domain (receives are renumbered in place, a
retained chunk's wrapper is built with its own domain_id); a locally
retained chunk becomes a fresh wrapper node around the original mesh,
and that wrapper shares every non-state child of the original, preserves
state/cycle and state/time, while the original node itself is not
rebuilt. -/
theorem communicate_chunks_frame (n : List Nat)
    (dest_rank dest_domain : List Int) (gmeshes : List CNode) (r : Nat) :
    (∀ e ∈ assembleFor n dest_rank dest_domain r,
      getPath2 (nodeFor gmeshes e).1 "state" "domain_id" =
        some (CNode.intLeaf (AsmChunk.dom e))) ∧
    (∀ g li dom,
      AsmChunk.retained g li dom ∈ assembleFor n dest_rank dest_domain r →
      nodeFor gmeshes (AsmChunk.retained g li dom) =
        (wrapChunk (gmeshes.getD g (CNode.obj [])) dom, true) ∧
      (∀ nm, nm ≠ "state" →
        getChild (wrapChunk (gmeshes.getD g (CNode.obj [])) dom) nm =
          getChild (gmeshes.getD g (CNode.obj [])) nm) ∧
      getPath2 (wrapChunk (gmeshes.getD g (CNode.obj [])) dom)
          "state" "cycle" =
        getPath2 (gmeshes.getD g (CNode.obj [])) "state" "cycle" ∧
      getPath2 (wrapChunk (gmeshes.getD g (CNode.obj [])) dom)
          "state" "time" =
        getPath2 (gmeshes.getD g (CNode.obj [])) "state" "time") := by
  refine ⟨?_, ?_⟩
  · intro e _
    cases e with
    | retained g li dom =>
      show getPath2 (wrapChunk (gmeshes.getD g (CNode.obj [])) dom)
        "state" "domain_id" = some (CNode.intLeaf dom)
      exact wrapChunk_domain_id _ dom
    | received g src tag dom =>
      show getPath2 (renumber (gmeshes.getD g (CNode.obj [])) dom)
        "state" "domain_id" = some (CNode.intLeaf dom)
      exact getPath2_setPath2_self _ "state" "domain_id" _
  · intro g li dom _
    exact ⟨rfl, fun nm hnm => wrapChunk_nonstate _ dom nm hnm,
      wrapChunk_cycle _ dom, wrapChunk_time _ dom⟩

/-- Witness: on one rank with a single chunk retained to domain 4, the
assembled node carries state/domain_id 4 and shares the non-state child
of the original mesh. -/
theorem communicate_chunks_frame_witness :
    getPath2 (nodeFor [CNode.obj [("topologies", CNode.intLeaf 7)]]
        (AsmChunk.retained 0 0 4)).1 "state" "domain_id" =
      some (CNode.intLeaf 4) ∧
    getChild (wrapChunk (CNode.obj [("topologies", CNode.intLeaf 7)]) 4)
        "topologies" =
      getChild (CNode.obj [("topologies", CNode.intLeaf 7)])
        "topologies" := by
  have h := communicate_chunks_frame [1] [0] [4]
    [CNode.obj [("topologies", CNode.intLeaf 7)]] 0
  exact ⟨h.1 (AsmChunk.retained 0 0 4) (by decide),
    (h.2 0 0 4 (by decide)).2.1 "topologies" (by decide)⟩

/-- C10. Every chunk placed into chunks_to_assemble has owns = true —
wrapped retained chunks and received chunks alike — so chunk::free
releases each of them and no borrowed node remains in the list. -/
theorem chunks_to_assemble_owned (n : List Nat)
    (dest_rank dest_domain : List Int) (gmeshes : List CNode) (r : Nat) :
    ∀ c ∈ chunksToAssemble n dest_rank dest_domain gmeshes r,
      c.2 = true ∧ chunk_free_releases c = true := by
  intro c hc
  obtain ⟨e, _, hne⟩ := List.mem_map.mp hc
  cases e <;> rw [← hne] <;> exact ⟨rfl, rfl⟩

/-- Witness: the single retained chunk of a one-rank run is owned and
released. -/
theorem chunks_to_assemble_owned_witness :
    (nodeFor [CNode.intLeaf 3] (AsmChunk.retained 0 0 2)).2 = true ∧
      chunk_free_releases (nodeFor [CNode.intLeaf 3]
        (AsmChunk.retained 0 0 2)) = true :=
  chunks_to_assemble_owned [1] [0] [2] [CNode.intLeaf 3] 0
    (nodeFor [CNode.intLeaf 3] (AsmChunk.retained 0 0 2))
    (List.mem_map.mpr ⟨AsmChunk.retained 0 0 2, by decide, rfl⟩)

/-! ## Witnesses for the remaining conditional claim theorems -/

/-- Witness: a singleton sorted count map and one pinned chunk satisfy
the hypotheses, and the initial count map holds the pinned sum at the
pinned domain. -/
theorem map_chunks_domain_assignment_witness :
    (SortedKeys [((0 : Int), (0 : Nat))] ∧
      [((0 : Int), (0 : Nat))] ≠ ([] : List (Int × Nat))) ∧
    mapFind (initDomainCounts [(⟨4, -1, 2⟩ : chunk_info)]) 2 =
      (if ∃ c ∈ [(⟨4, -1, 2⟩ : chunk_info)], c.destination_domain = 2 ∧
          c.destination_domain ≠ FREE_DOMAIN_ID then
        some (fixedSum [(⟨4, -1, 2⟩ : chunk_info)] 2) else none) :=
  ⟨⟨by simp [SortedKeys], by simp⟩,
    (map_chunks_domain_assignment [⟨4, -1, 2⟩] [((0 : Int), (0 : Nat))]
      (by simp [SortedKeys]) (by simp)).1 2⟩

/-- Witness: two reserved domains against target one trip the warn
branch, which leaves the reserved set and counts unchanged. -/
theorem map_chunks_fresh_domains_witness :
    (reservedSet [(⟨4, -1, 2⟩ : chunk_info), ⟨4, -1, 5⟩]).length > 1 ∧
    synthesizeDomains 1 (reservedSet [(⟨4, -1, 2⟩ : chunk_info), ⟨4, -1, 5⟩])
        (initDomainCounts [(⟨4, -1, 2⟩ : chunk_info), ⟨4, -1, 5⟩]) =
      (true, reservedSet [(⟨4, -1, 2⟩ : chunk_info), ⟨4, -1, 5⟩],
        initDomainCounts [(⟨4, -1, 2⟩ : chunk_info), ⟨4, -1, 5⟩]) :=
  ⟨by decide,
    (map_chunks_fresh_domains 1 [⟨4, -1, 2⟩, ⟨4, -1, 5⟩]).2.2.1 (by decide)⟩

/-- Witness: a selection table with a positive count satisfies the
amended largest-selection claim. -/
theorem get_largest_selection_amended_witness :
    (∃ row ∈ [[2, 5], [5]], ∃ s ∈ row, 0 < s) ∧
      largestSelClaimHolds [[2, 5], [5]] :=
  ⟨⟨[2, 5], by decide, 2, by decide, by decide⟩,
    get_largest_selection_amended [[2, 5], [5]]
      ⟨[2, 5], by decide, 2, by decide, by decide⟩⟩

/-- Witness: with one rank providing target 3 and one providing none,
options_get_target reports success. -/
theorem options_get_target_max_witness :
    (some 3 ∈ [some 3, none] ∧ 0 < base_target_value (some 3)) ∧
    (options_get_target [some 3, none]).2 = true :=
  ⟨⟨by decide, by decide⟩,
    (options_get_target_max [some 3, none]).2.2.mpr
      ⟨some 3, by decide, by decide⟩⟩

/-- Witness: one rank, target one, one free chunk — the mapped domain
list has the input length. -/
theorem map_chunks_post_amended_witness :
    (1 ≤ 1) ∧
    (map_chunks 1 1 [(⟨4, -1, -1⟩ : chunk_info)]).dest_domain.length =
      1 :=
  ⟨le_refl 1,
    (map_chunks_post_amended 1 1 [⟨4, -1, -1⟩] (le_refl 1) (le_refl 1)).1⟩

/-- Witness: a single free-rank chunk pair puts its domain into the
to-assign set. -/
theorem map_chunks_rank_assignment_witness :
    (1 ≤ 1) ∧
    ((0 : Int) ∈ domainsToAssign [((⟨4, -1, 7⟩ : chunk_info), (0 : Int))] ↔
      ∃ c ∈ [((⟨4, -1, 7⟩ : chunk_info), (0 : Int))],
        c.1.destination_rank = FREE_RANK_ID ∧ c.2 = 0) :=
  ⟨le_refl 1,
    (map_chunks_rank_assignment 1 [] [(⟨4, -1, 7⟩, 0)] (le_refl 1)).1 0⟩

/-- Witness: two ranks with one chunk each, both destined for rank 1 —
the assembled global indices on rank 1 are the filtered range. -/
theorem communicate_chunks_matching_witness :
    (1 ≤ ([1, 1] : List Nat).length ∧
      ([1, 1] : List Int).length = ([1, 1] : List Nat).sum ∧
      ∀ d ∈ ([1, 1] : List Int), d < ((([1, 1] : List Nat).length : Nat) : Int)) ∧
    (assembleFor [1, 1] [1, 1] [0, 0] 1).map AsmChunk.gidx =
      (List.range ([1, 1] : List Int).length).filter
        (fun i => ([1, 1] : List Int).getD i FREE_RANK_ID = ((1 : Nat) : Int)) :=
  ⟨⟨by decide, by decide, by decide⟩,
    (communicate_chunks_matching [1, 1] [1, 1] [0, 0] (by decide)
      (by decide) (by decide)).1 1⟩

end ConduitPartition
